import Mathlib

/-!
Verification of the board/rules engine of this repository (`Board.py`).

The board is an 8×8 grid of numeric cell codes:
  0x00–0x0B : white pieces with id 0–11      (code = 0x00 + id)
  0x10–0x1B : black pieces with id 0–11      (code = 0x10 + id)
  0x20      : empty cell '-'
  0x30      : blocked cell 'X'
  0x40      : cell removed by board shrinking '#'

We embed the mutable Python class as a Lean structure `WYB.Board` and each
method as a pure state-transforming function, translated line by line from
the source.  Python indexing `board[x][y]` with a possibly negative index
wraps around for -8 ≤ i < 0; `pyIdx` reproduces that.  (Indices outside
[-8, 8) raise in Python; here the read returns a default and the write is a
no-op.  Likewise the registry write `self.pieces[p // 0x10][p % 0x10]`
raises `IndexError` in Python when `p` is not a piece code with id below 12
— a `move` whose source cell is empty dies there, at `self.pieces[2][0]`,
before `turns += 1`, leaving the state unchanged — while the embedded
`regSet` leaves the registry unchanged and continues.  The theorems below
therefore quantify only over inputs on which the source itself reaches the
state change they assert: reachable states and valid operations, or, for
the unvalidated-mutation statements of C1, a piece at the move's source and
a side index below 2 for `place`'s counter bump.)

Python raises `IndexError` when `oppo[p // 0x10]` is evaluated with
`p // 0x10 ∉ {0, 1}` (i.e. at a blocked or removed cell whose flanks both
pass the in-board test); the total embedding `surrounded` returns `false`
there via `List.getD _ _ []`.  The instrumented variant `surroundedChk`
returns `none` exactly when Python would raise, and the safety theorem for
reachable states shows the flank test always short-circuits first, so the
two embeddings agree with the source everywhere the theorems look.
-/

namespace WYB

/-- Python-style list index into a length-8 row/grid: negative indices in
[-8, -1] address from the end. -/
def pyIdx (i : Int) : Nat := (if i < 0 then i + 8 else i).toNat

/-- Read `g[x][y]` from a grid (list of rows). -/
def cellOf (g : List (List Nat)) (x y : Int) : Nat :=
  (g.getD (pyIdx x) []).getD (pyIdx y) 0

/-- Write `g[x][y] = v` on a grid (list of rows). -/
def gset (g : List (List Nat)) (x y : Int) (v : Nat) : List (List Nat) :=
  g.set (pyIdx x) ((g.getD (pyIdx x) []).set (pyIdx y) v)

/-- `Board.mappings`-era constants: the hostility table `oppo` of the source
(`oppo = [(1, 3), (0, 3)]`): row `t` lists the cell-code high nibbles hostile
to side `t` (the opposing side's pieces and blocked cells). -/
def oppo : List (List Nat) := [[1, 3], [0, 3]]

/-- The four orthogonal directions, in source order. -/
def dirs : List (Int × Int) := [(0, -1), (1, 0), (0, 1), (-1, 0)]

/-- State of `Board`: grid, per-side registries/counters and the shrink
schedule, mirroring the `__slots__` of the source class. -/
structure Board where
  board : List (List Nat)
  border : Nat
  count : List Nat
  num_pieces : List Int
  pieces : List (List (Option (Int × Int)))
  turn_step : Nat
  turn_thres : Nat
  turns : Nat
deriving DecidableEq, Repr

/-- `Board.__init__`. -/
def initBoard : Board :=
  let b0 := List.replicate 8 (List.replicate 8 0x20)
  let b1 := gset (gset (gset (gset b0 0 0 0x30) 0 7 0x30) 7 0 0x30) 7 7 0x30
  { board := b1
    border := 0
    count := [0, 0]
    num_pieces := [0, 0]
    pieces := [List.replicate 12 none, List.replicate 12 none]
    turn_step := 64
    turn_thres := 128
    turns := 0 }

/-- Registry read `self.pieces[t][i]`. -/
def regGet (s : Board) (t i : Nat) : Option (Int × Int) :=
  (s.pieces.getD t []).getD i none

/-- Registry write `self.pieces[t][i] = v`. -/
def regSet (s : Board) (t i : Nat) (v : Option (Int × Int)) : Board :=
  { s with pieces := s.pieces.set t ((s.pieces.getD t []).set i v) }

/-- `Board._add_rec`. -/
def add_rec (s : Board) (p : Nat) (pos : Int × Int) : Board :=
  let t := p / 0x10
  let s' := regSet s t (p % 0x10) (some pos)
  { s' with num_pieces := s'.num_pieces.set t (s'.num_pieces.getD t 0 + 1) }

/-- `Board._delete_rec`. -/
def delete_rec (s : Board) (p : Nat) : Board :=
  if 0x20 ≤ p then s
  else
    let t := p / 0x10
    let s' := regSet s t (p % 0x10) none
    { s' with num_pieces := s'.num_pieces.set t (s'.num_pieces.getD t 0 - 1) }

/-- `Board._inboard`. -/
def inboard (s : Board) (x y : Int) : Bool :=
  (s.border : Int) - 1 < x && x < 8 - (s.border : Int) &&
  (s.border : Int) - 1 < y && y < 8 - (s.border : Int)

/-- `Board._surrounded` (total embedding; see the module comment about the
out-of-range `oppo` lookup). -/
def surrounded (s : Board) (x y dx dy : Int) : Bool :=
  if !inboard s (x + dx) (y + dy) then false
  else if !inboard s (x - dx) (y - dy) then false
  else
    let p := cellOf s.board x y
    if p = 0x20 then false
    else
      let p1 := cellOf s.board (x + dx) (y + dy)
      let p2 := cellOf s.board (x - dx) (y - dy)
      (oppo.getD (p / 0x10) []).contains (p1 / 0x10) &&
      (oppo.getD (p / 0x10) []).contains (p2 / 0x10)

/-- Instrumented `_surrounded`: `none` exactly where Python's
`self.oppo[p // 0x10]` would raise `IndexError`. -/
def surroundedChk (s : Board) (x y dx dy : Int) : Option Bool :=
  if !inboard s (x + dx) (y + dy) then some false
  else if !inboard s (x - dx) (y - dy) then some false
  else
    let p := cellOf s.board x y
    if p = 0x20 then some false
    else
      match oppo.get? (p / 0x10) with
      | none => none
      | some l =>
        let p1 := cellOf s.board (x + dx) (y + dy)
        let p2 := cellOf s.board (x - dx) (y - dy)
        some (l.contains (p1 / 0x10) && l.contains (p2 / 0x10))

/-- Deleting the record of a cell's occupant and overwriting the cell: the
`_delete_rec`/assignment pairs that appear inside `_elim` and `_shrink`. -/
def clearCellTo (s : Board) (x y : Int) (v : Nat) : Board :=
  let s' := delete_rec s (cellOf s.board x y)
  { s' with board := gset s'.board x y v }

/-- One direction of `Board._elim`. -/
def elimStep (x y : Int) (s : Board) (d : Int × Int) : Board :=
  let nx := x + d.1
  let ny := y + d.2
  if surrounded s nx ny d.1 d.2 then clearCellTo s nx ny 0x20 else s

/-- `Board._elim`. -/
def elim (s : Board) (x y : Int) : Board :=
  dirs.foldl (elimStep x y) s

/-- `Board._try_move`. -/
def try_move (s : Board) (x y dx dy : Int) : Option (Int × Int) :=
  let nx := x + dx
  let ny := y + dy
  if !inboard s nx ny || cellOf s.board nx ny = 0x30 then none
  else if cellOf s.board nx ny = 0x20 then some (nx, ny)
  else
    let nx2 := nx + dx
    let ny2 := ny + dy
    if inboard s nx2 ny2 && cellOf s.board nx2 ny2 = 0x20 then some (nx2, ny2)
    else none

/-- The cells cleared by the first loop of `_shrink`
(`for i in range(b, 7 - b): for x, y in ((b,i),(7-i,b),(7-b,7-i),(i,7-b))`). -/
def ringCells (b : Nat) : List (Int × Int) :=
  (List.range (7 - 2 * b)).flatMap fun k =>
    let i : Int := (b : Int) + k
    [((b : Int), i), (7 - i, (b : Int)), (7 - (b : Int), 7 - i), (i, 7 - (b : Int))]

/-- The four cells of the second phase of `_shrink`.  After the first loop
the Python loop variable `i` is left at `6 - b`, and `b` has been rebound to
`b + 1`; the tuple `((b,i),(7-i,b),(7-b,7-i),(i,7-b))` then denotes exactly
these cells (the corners of the ring one step inward). -/
def cornerCells (b : Nat) : List (Int × Int) :=
  let b' : Int := (b : Int) + 1
  let i : Int := 6 - (b : Int)
  [(b', i), (7 - i, b'), (7 - b', 7 - i), (i, 7 - b')]

/-- `Board._shrink`. -/
def shrink (s : Board) : Board :=
  let b := s.border
  let s1 := (ringCells b).foldl (fun s' c => clearCellTo s' c.1 c.2 0x40) s
  let s2 := (cornerCells b).foldl
    (fun s' c => elim (clearCellTo s' c.1 c.2 0x30) c.1 c.2) s1
  { s2 with
    border := s2.border + (b + 1)
    turn_thres := s2.turn_thres + s2.turn_step
    turn_step := s2.turn_step / 2 }

/-- `Board.copy`. -/
def copy (s : Board) : Board :=
  { board := s.board.map fun j => j.map fun i => i
    border := s.border
    count := s.count.map fun i => i
    num_pieces := s.num_pieces.map fun i => i
    pieces := s.pieces.map fun j => j.map fun i => i
    turn_step := s.turn_step
    turn_thres := s.turn_thres
    turns := s.turns }

/-- The simultaneous swap assignment opening `Board.move`
(`board[sx][sy], board[dx][dy] = board[dx][dy], board[sx][sy]`). -/
def moveSwap (s : Board) (sx sy dx dy : Int) : Board :=
  let a := cellOf s.board dx dy
  let b := cellOf s.board sx sy
  { s with board := gset (gset s.board sx sy a) dx dy b }

/-- The middle of `Board.move`: after `_elim`, either the moved piece `p` is
itself surrounded (cell emptied, record deleted) or its registry entry is
updated to the destination. -/
def moveResolve (s1 : Board) (p : Nat) (dx dy : Int) : Board :=
  if surrounded s1 dx dy 1 0 || surrounded s1 dx dy 0 1 then
    delete_rec { s1 with board := gset s1.board dx dy 0x20 } p
  else
    regSet s1 (p / 0x10) (p % 0x10) (some (dx, dy))

/-- `Board.move` up to and including `self.turns += 1`. -/
def moveCore (s : Board) (sx sy dx dy : Int) : Board :=
  let s0 := moveSwap s sx sy dx dy
  let s2 := moveResolve (elim s0 dx dy) (cellOf s0.board dx dy) dx dy
  { s2 with turns := s2.turns + 1 }

/-- `Board.move`. -/
def move (s : Board) (sx sy dx dy : Int) : Board :=
  let s3 := moveCore s sx sy dx dy
  if s3.turns = s3.turn_thres then shrink s3 else s3

/-- The end of `Board.place`: after `_elim`, the freshly placed piece is
either itself surrounded (cell emptied, never recorded) or recorded. -/
def placeResolve (s2 : Board) (piece : Nat) (x y : Int) : Board :=
  if surrounded s2 x y 1 0 || surrounded s2 x y 0 1 then
    { s2 with board := gset s2.board x y 0x20 }
  else
    add_rec s2 piece (x, y)

/-- `Board.place`. -/
def place (s : Board) (x y : Int) (type : Nat) : Board :=
  let piece := type * 0x10 + s.count.getD type 0
  let s0 := { s with count := s.count.set type (s.count.getD type 0 + 1) }
  let s1 := { s0 with board := gset s0.board x y piece }
  placeResolve (elim s1 x y) piece x y

/-- `Board.place` up to and including the `_elim` call: the state in which the
self-capture check (`_surrounded` on the two axes) is evaluated. -/
def placeElim (s : Board) (x y : Int) (type : Nat) : Board :=
  let piece := type * 0x10 + s.count.getD type 0
  let s0 := { s with count := s.count.set type (s.count.getD type 0 + 1) }
  let s1 := { s0 with board := gset s0.board x y piece }
  elim s1 x y

/-- Membership in the `Board.valid_place(type)` enumeration, together with
the `count[side] < 12` piece-budget precondition of a valid placement. -/
def validPlace (s : Board) (x y : Int) (type : Nat) : Bool :=
  decide (type < 2) && decide (s.count.getD type 0 < 12) &&
  (if type ≠ 0 then decide ((2 : Int) ≤ x ∧ x < 8) else decide ((0 : Int) ≤ x ∧ x < 6)) &&
  decide ((0 : Int) ≤ y ∧ y < 8) &&
  decide (cellOf s.board x y = 0x20)

/-- Membership in the `Board.valid_move(type)` enumeration for either side:
the origin is a live registry entry and the destination is produced by
`_try_move` in one of the four directions. -/
def validMove (s : Board) (sx sy dx dy : Int) : Bool :=
  ((s.pieces.getD 0 []).contains (some (sx, sy)) ||
   (s.pieces.getD 1 []).contains (some (sx, sy))) &&
  dirs.any fun d => try_move s sx sy d.1 d.2 = some (dx, dy)

/-- `Board.end` (named `endB`: `end` is a Lean keyword). -/
def endB (s : Board) : Bool :=
  s.num_pieces.any fun i => i < 2

/-- States reachable from the initial board by valid placements and moves. -/
inductive ReachableV : Board → Prop
  | init : ReachableV initBoard
  | place {s : Board} {x y : Int} {t : Nat} :
      ReachableV s → validPlace s x y t = true → ReachableV (place s x y t)
  | move {s : Board} {sx sy dx dy : Int} :
      ReachableV s → validMove s sx sy dx dy = true → ReachableV (move s sx sy dx dy)

/-- Apply a list of `move` calls in order. -/
def applyMoves (s : Board) (ms : List (Int × Int × Int × Int)) : Board :=
  ms.foldl (fun s' m => move s' m.1 m.2.1 m.2.2.1 m.2.2.2) s

/-- Each move of the list is in the `valid_move` enumeration of the state it
is applied to. -/
def validSeq (s : Board) : List (Int × Int × Int × Int) → Bool
  | [] => true
  | m :: r => validMove s m.1 m.2.1 m.2.2.1 m.2.2.2 &&
      validSeq (move s m.1 m.2.1 m.2.2.1 m.2.2.2) r

/-- A single white piece placed at (2,2) on the fresh board. -/
def s0C : Board := place initBoard 2 2 0

/-- One round trip of the shuttling piece: (2,2) to (2,3) and back. -/
def ms2 : List (Int × Int × Int × Int) := [(2, 2, 2, 3), (2, 3, 2, 2)]

/-- 128 valid moves: the piece at (2,2) shuttles to (2,3) and back 64 times. -/
def msC : List (Int × Int × Int × Int) :=
  (List.range 64).flatMap fun _ => ms2

/-- The state of the shuttle run after an even number `n ≤ 126` of moves:
identical to `place initBoard 2 2 0` except for the turn counter. -/
def sShut (n : Nat) : Board :=
  { board := [[0x30, 0x20, 0x20, 0x20, 0x20, 0x20, 0x20, 0x30],
              [0x20, 0x20, 0x20, 0x20, 0x20, 0x20, 0x20, 0x20],
              [0x20, 0x20, 0x00, 0x20, 0x20, 0x20, 0x20, 0x20],
              [0x20, 0x20, 0x20, 0x20, 0x20, 0x20, 0x20, 0x20],
              [0x20, 0x20, 0x20, 0x20, 0x20, 0x20, 0x20, 0x20],
              [0x20, 0x20, 0x20, 0x20, 0x20, 0x20, 0x20, 0x20],
              [0x20, 0x20, 0x20, 0x20, 0x20, 0x20, 0x20, 0x20],
              [0x30, 0x20, 0x20, 0x20, 0x20, 0x20, 0x20, 0x30]]
    border := 0
    count := [1, 0]
    num_pieces := [1, 0]
    pieces := [[some (2, 2), none, none, none, none, none, none, none, none,
                none, none, none],
               List.replicate 12 none]
    turn_step := 64
    turn_thres := 128
    turns := n }

/-- The state of the shuttle run after all 128 moves: the 128th move has
triggered the shrink (ring 0 removed, ring-1 corners blocked). -/
def sFin : Board :=
  { board := [[0x40, 0x40, 0x40, 0x40, 0x40, 0x40, 0x40, 0x40],
              [0x40, 0x30, 0x20, 0x20, 0x20, 0x20, 0x30, 0x40],
              [0x40, 0x20, 0x00, 0x20, 0x20, 0x20, 0x20, 0x40],
              [0x40, 0x20, 0x20, 0x20, 0x20, 0x20, 0x20, 0x40],
              [0x40, 0x20, 0x20, 0x20, 0x20, 0x20, 0x20, 0x40],
              [0x40, 0x20, 0x20, 0x20, 0x20, 0x20, 0x20, 0x40],
              [0x40, 0x30, 0x20, 0x20, 0x20, 0x20, 0x30, 0x40],
              [0x40, 0x40, 0x40, 0x40, 0x40, 0x40, 0x40, 0x40]]
    border := 1
    count := [1, 0]
    num_pieces := [1, 0]
    pieces := [[some (2, 2), none, none, none, none, none, none, none, none,
                none, none, none],
               List.replicate 12 none]
    turn_step := 32
    turn_thres := 192
    turns := 128 }

/-- A white piece at (3,2) next to an artificially blocked cell (3,3), with
the cell (3,4) beyond it empty and active. -/
def sBlock : Board :=
  let s := place initBoard 3 2 0
  { s with board := gset s.board 3 3 0x30 }

/-- A black piece placed at (0,2): placing white at (0,1) then self-captures
between the corner block (0,0) and this piece. -/
def sFlank : Board := place initBoard 0 2 1

/-- The grid is an 8×8 list of lists. -/
def gridShape (g : List (List Nat)) : Prop :=
  g.length = 8 ∧ ∀ r ∈ g, r.length = 8

/-- Structural/bookkeeping invariant of a board state, with the pairing
conditions exempted for one cell code `e` (the code of a piece currently in
flight during `place`/`move`; `e = 0x20` exempts nothing, since piece codes
are all below `0x20`):

* the grid is 8×8, the per-side lists have length 2, registries length 12;
* every cell holds a legal code (a piece code with id below 12, or
  `0x20`/`0x30`/`0x40`);
* a registry entry of a (non-exempt) piece points to the cell holding
  exactly that piece code, and conversely;
* registry slots at indices not yet handed out by `count` are empty;
* `num_pieces` counts the occupied registry slots. -/
structure InvE (s : Board) (e : Nat) : Prop where
  shape : gridShape s.board
  countLen : s.count.length = 2
  npLen : s.num_pieces.length = 2
  regLen : s.pieces.length = 2
  slotLen : ∀ l ∈ s.pieces, l.length = 12
  codes : ∀ x y : Int, 0 ≤ x → x < 8 → 0 ≤ y → y < 8 →
    cellOf s.board x y = 0x20 ∨ cellOf s.board x y = 0x30 ∨
    cellOf s.board x y = 0x40 ∨
    (cellOf s.board x y < 0x20 ∧ cellOf s.board x y % 16 < 12)
  reg2grid : ∀ (t i : Nat) (x y : Int), t < 2 → i < 12 → 16 * t + i ≠ e →
    regGet s t i = some (x, y) →
    0 ≤ x ∧ x < 8 ∧ 0 ≤ y ∧ y < 8 ∧ cellOf s.board x y = 16 * t + i
  grid2reg : ∀ x y : Int, 0 ≤ x → x < 8 → 0 ≤ y → y < 8 →
    cellOf s.board x y < 0x20 → cellOf s.board x y ≠ e →
    regGet s (cellOf s.board x y / 16) (cellOf s.board x y % 16) = some (x, y)
  fresh : ∀ t i : Nat, t < 2 → i < 12 → s.count.getD t 0 ≤ i → regGet s t i = none
  live : ∀ t : Nat, t < 2 →
    s.num_pieces.getD t 0 = ((s.pieces.getD t []).countP fun o => o.isSome : Nat)

/-- The full bookkeeping invariant (no exempt code). -/
def InvCore (s : Board) : Prop := InvE s 0x20

/-- Geometric safety of walls: every blocked cell sits at a corner position
relative to the current border (both coordinates at or outside the active
band), and every removed cell lies strictly outside the active area.  These
are exactly the facts that make `_surrounded`'s in-board flank tests fail
before `oppo[p // 0x10]` would be indexed out of range. -/
def SafeB (s : Board) : Prop :=
  (∀ x y : Int, 0 ≤ x → x < 8 → 0 ≤ y → y < 8 → cellOf s.board x y = 0x30 →
    (x ≤ (s.border : Int) ∨ (7 : Int) - s.border ≤ x) ∧
    (y ≤ (s.border : Int) ∨ (7 : Int) - s.border ≤ y)) ∧
  (∀ x y : Int, 0 ≤ x → x < 8 → 0 ≤ y → y < 8 → cellOf s.board x y = 0x40 →
    x < (s.border : Int) ∨ (7 : Int) - s.border < x ∨
    y < (s.border : Int) ∨ (7 : Int) - s.border < y)

/-- Invariant carried through the reachability induction. -/
def Inv (s : Board) : Prop := InvCore s ∧ SafeB s

end WYB

/-! ## Generic list lemmas -/

namespace WYB

theorem getD_set' {α : Type _} (l : List α) (i j : Nat) (v d : α) :
    (l.set i v).getD j d = if i = j ∧ j < l.length then v else l.getD j d := by
  by_cases hj : j < l.length
  · have hj' : j < (l.set i v).length := by simpa using hj
    rw [List.getD_eq_getElem _ _ hj', List.getD_eq_getElem _ _ hj]
    rw [List.getElem_set]
    simp [hj]
  · rw [List.getD_eq_default _ _ (by simpa using Nat.le_of_not_lt hj),
      List.getD_eq_default _ _ (Nat.le_of_not_lt hj)]
    simp [hj]

theorem countP_set {α : Type _} (l : List α) (i : Nat) (v : α) (p : α → Bool)
    (h : i < l.length) :
    (l.set i v).countP p + (if p (l.getD i v) then 1 else 0)
      = l.countP p + (if p v then 1 else 0) := by
  induction l generalizing i with
  | nil => simp at h
  | cons a t ih =>
    cases i with
    | zero => simp [List.countP_cons]; omega
    | succ n =>
      have h' : n < t.length := by simpa using h
      have := ih n h'
      simp only [List.set_cons_succ, List.countP_cons, List.getD_cons_succ]
      omega

theorem getD_eq_getD {α : Type _} {l : List α} {i : Nat} (h : i < l.length)
    (d1 d2 : α) : l.getD i d1 = l.getD i d2 := by
  rw [List.getD_eq_getElem _ _ h, List.getD_eq_getElem _ _ h]

theorem pyIdx_nonneg {x : Int} (hx : 0 ≤ x) : pyIdx x = x.toNat := by
  simp [pyIdx, show ¬x < 0 by omega]

theorem pyIdx_inj {x y : Int} (hx : 0 ≤ x) (hx8 : x < 8) (hy : 0 ≤ y)
    (hy8 : y < 8) (h : pyIdx x = pyIdx y) : x = y := by
  rw [pyIdx_nonneg hx, pyIdx_nonneg hy] at h
  omega

theorem gridShape_gset {g : List (List Nat)} (hg : gridShape g) (x y : Int)
    (v : Nat) : gridShape (gset g x y v) := by
  obtain ⟨hl, hr⟩ := hg
  unfold gset
  by_cases hx : pyIdx x < g.length
  · constructor
    · simpa using hl
    · intro r hrmem
      rcases List.mem_or_eq_of_mem_set hrmem with h | h
      · exact hr r h
      · subst h
        have hmem : g.getD (pyIdx x) [] ∈ g := by
          rw [List.getD_eq_getElem _ _ hx]
          exact List.getElem_mem hx
        simpa using hr _ hmem
  · rw [List.set_eq_of_length_le (Nat.le_of_not_lt hx)]
    exact ⟨hl, hr⟩

theorem cellOf_gset {g : List (List Nat)} (hg : gridShape g) {x y a b : Int}
    (v : Nat) (hx : 0 ≤ x) (hx8 : x < 8) (hy : 0 ≤ y) (hy8 : y < 8)
    (ha : 0 ≤ a) (ha8 : a < 8) (hb : 0 ≤ b) (hb8 : b < 8) :
    cellOf (gset g x y v) a b = if a = x ∧ b = y then v else cellOf g a b := by
  obtain ⟨hl, hr⟩ := hg
  have hxl : pyIdx x < g.length := by rw [pyIdx_nonneg hx, hl]; omega
  have hrowx : (g.getD (pyIdx x) []).length = 8 := by
    apply hr
    rw [List.getD_eq_getElem _ _ hxl]
    exact List.getElem_mem hxl
  have hyl : pyIdx y < (g.getD (pyIdx x) []).length := by
    rw [pyIdx_nonneg hy, hrowx]; omega
  unfold cellOf gset
  by_cases hax : a = x
  · subst hax
    rw [getD_set', if_pos ⟨rfl, hxl⟩, getD_set']
    by_cases hby : b = y
    · subst hby
      rw [if_pos ⟨rfl, hyl⟩, if_pos ⟨rfl, rfl⟩]
    · have hne : pyIdx y ≠ pyIdx b := fun h => hby (pyIdx_inj hy hy8 hb hb8 h).symm
      rw [if_neg (by tauto), if_neg (by tauto)]
  · have hne : pyIdx x ≠ pyIdx a := fun h => hax (pyIdx_inj ha ha8 hx hx8 h.symm)
    rw [getD_set', if_neg (by tauto), if_neg (by tauto)]

theorem gridShape_init : gridShape initBoard.board := by
  constructor
  · decide
  · decide

/-! ## Scalar-field preservation lemmas -/

@[simp] theorem regSet_board (s : Board) (t i : Nat) (v : Option (Int × Int)) :
    (regSet s t i v).board = s.board := rfl

@[simp] theorem regSet_border (s : Board) (t i : Nat) (v : Option (Int × Int)) :
    (regSet s t i v).border = s.border := rfl

@[simp] theorem regSet_count (s : Board) (t i : Nat) (v : Option (Int × Int)) :
    (regSet s t i v).count = s.count := rfl

@[simp] theorem regSet_num_pieces (s : Board) (t i : Nat) (v : Option (Int × Int)) :
    (regSet s t i v).num_pieces = s.num_pieces := rfl

@[simp] theorem regSet_turns (s : Board) (t i : Nat) (v : Option (Int × Int)) :
    (regSet s t i v).turns = s.turns := rfl

@[simp] theorem regSet_turn_thres (s : Board) (t i : Nat) (v : Option (Int × Int)) :
    (regSet s t i v).turn_thres = s.turn_thres := rfl

@[simp] theorem regSet_turn_step (s : Board) (t i : Nat) (v : Option (Int × Int)) :
    (regSet s t i v).turn_step = s.turn_step := rfl

@[simp] theorem delete_rec_board (s : Board) (p : Nat) :
    (delete_rec s p).board = s.board := by
  unfold delete_rec; split <;> rfl

@[simp] theorem delete_rec_border (s : Board) (p : Nat) :
    (delete_rec s p).border = s.border := by
  unfold delete_rec; split <;> rfl

@[simp] theorem delete_rec_count (s : Board) (p : Nat) :
    (delete_rec s p).count = s.count := by
  unfold delete_rec; split <;> rfl

@[simp] theorem delete_rec_turns (s : Board) (p : Nat) :
    (delete_rec s p).turns = s.turns := by
  unfold delete_rec; split <;> rfl

@[simp] theorem delete_rec_turn_thres (s : Board) (p : Nat) :
    (delete_rec s p).turn_thres = s.turn_thres := by
  unfold delete_rec; split <;> rfl

@[simp] theorem delete_rec_turn_step (s : Board) (p : Nat) :
    (delete_rec s p).turn_step = s.turn_step := by
  unfold delete_rec; split <;> rfl

@[simp] theorem add_rec_board (s : Board) (p : Nat) (pos : Int × Int) :
    (add_rec s p pos).board = s.board := rfl

@[simp] theorem add_rec_border (s : Board) (p : Nat) (pos : Int × Int) :
    (add_rec s p pos).border = s.border := rfl

@[simp] theorem add_rec_count (s : Board) (p : Nat) (pos : Int × Int) :
    (add_rec s p pos).count = s.count := rfl

@[simp] theorem add_rec_turns (s : Board) (p : Nat) (pos : Int × Int) :
    (add_rec s p pos).turns = s.turns := rfl

@[simp] theorem add_rec_turn_thres (s : Board) (p : Nat) (pos : Int × Int) :
    (add_rec s p pos).turn_thres = s.turn_thres := rfl

@[simp] theorem add_rec_turn_step (s : Board) (p : Nat) (pos : Int × Int) :
    (add_rec s p pos).turn_step = s.turn_step := rfl

@[simp] theorem clearCellTo_board (s : Board) (x y : Int) (v : Nat) :
    (clearCellTo s x y v).board = gset s.board x y v := by
  simp [clearCellTo]

@[simp] theorem clearCellTo_border (s : Board) (x y : Int) (v : Nat) :
    (clearCellTo s x y v).border = s.border := by
  simp [clearCellTo]

@[simp] theorem clearCellTo_count (s : Board) (x y : Int) (v : Nat) :
    (clearCellTo s x y v).count = s.count := by
  simp [clearCellTo]

@[simp] theorem clearCellTo_turns (s : Board) (x y : Int) (v : Nat) :
    (clearCellTo s x y v).turns = s.turns := by
  simp [clearCellTo]

@[simp] theorem clearCellTo_turn_thres (s : Board) (x y : Int) (v : Nat) :
    (clearCellTo s x y v).turn_thres = s.turn_thres := by
  simp [clearCellTo]

@[simp] theorem clearCellTo_turn_step (s : Board) (x y : Int) (v : Nat) :
    (clearCellTo s x y v).turn_step = s.turn_step := by
  simp [clearCellTo]

@[simp] theorem elimStep_border (x y : Int) (s : Board) (d : Int × Int) :
    (elimStep x y s d).border = s.border := by
  simp only [elimStep]; split <;> simp

@[simp] theorem elimStep_count (x y : Int) (s : Board) (d : Int × Int) :
    (elimStep x y s d).count = s.count := by
  simp only [elimStep]; split <;> simp

@[simp] theorem elimStep_turns (x y : Int) (s : Board) (d : Int × Int) :
    (elimStep x y s d).turns = s.turns := by
  simp only [elimStep]; split <;> simp

@[simp] theorem elimStep_turn_thres (x y : Int) (s : Board) (d : Int × Int) :
    (elimStep x y s d).turn_thres = s.turn_thres := by
  simp only [elimStep]; split <;> simp

@[simp] theorem elimStep_turn_step (x y : Int) (s : Board) (d : Int × Int) :
    (elimStep x y s d).turn_step = s.turn_step := by
  simp only [elimStep]; split <;> simp

@[simp] theorem elim_border (s : Board) (x y : Int) :
    (elim s x y).border = s.border := by
  simp [elim, dirs]

@[simp] theorem elim_count (s : Board) (x y : Int) :
    (elim s x y).count = s.count := by
  simp [elim, dirs]

@[simp] theorem elim_turns (s : Board) (x y : Int) :
    (elim s x y).turns = s.turns := by
  simp [elim, dirs]

@[simp] theorem elim_turn_thres (s : Board) (x y : Int) :
    (elim s x y).turn_thres = s.turn_thres := by
  simp [elim, dirs]

@[simp] theorem elim_turn_step (s : Board) (x y : Int) :
    (elim s x y).turn_step = s.turn_step := by
  simp [elim, dirs]

theorem foldl_clear_turnfields (l : List (Int × Int)) (v : Nat) (s : Board) :
    (l.foldl (fun s' c => clearCellTo s' c.1 c.2 v) s).turns = s.turns ∧
    (l.foldl (fun s' c => clearCellTo s' c.1 c.2 v) s).turn_thres = s.turn_thres ∧
    (l.foldl (fun s' c => clearCellTo s' c.1 c.2 v) s).turn_step = s.turn_step ∧
    (l.foldl (fun s' c => clearCellTo s' c.1 c.2 v) s).border = s.border ∧
    (l.foldl (fun s' c => clearCellTo s' c.1 c.2 v) s).count = s.count := by
  induction l generalizing s with
  | nil => simp
  | cons c t ih =>
    simpa using ih (clearCellTo s c.1 c.2 v)

theorem foldl_corner_turnfields (l : List (Int × Int)) (s : Board) :
    (l.foldl (fun s' c => elim (clearCellTo s' c.1 c.2 0x30) c.1 c.2) s).turns = s.turns ∧
    (l.foldl (fun s' c => elim (clearCellTo s' c.1 c.2 0x30) c.1 c.2) s).turn_thres = s.turn_thres ∧
    (l.foldl (fun s' c => elim (clearCellTo s' c.1 c.2 0x30) c.1 c.2) s).turn_step = s.turn_step ∧
    (l.foldl (fun s' c => elim (clearCellTo s' c.1 c.2 0x30) c.1 c.2) s).border = s.border ∧
    (l.foldl (fun s' c => elim (clearCellTo s' c.1 c.2 0x30) c.1 c.2) s).count = s.count := by
  induction l generalizing s with
  | nil => simp
  | cons c t ih =>
    simpa using ih (elim (clearCellTo s c.1 c.2 0x30) c.1 c.2)

theorem shrink_turns (s : Board) : (shrink s).turns = s.turns := by
  unfold shrink
  simp [(foldl_corner_turnfields _ _).1, (foldl_clear_turnfields _ _ _).1]

theorem shrink_turn_thres (s : Board) :
    (shrink s).turn_thres = s.turn_thres + s.turn_step := by
  unfold shrink
  have h1 := foldl_clear_turnfields (ringCells s.border) 0x40 s
  have h2 := foldl_corner_turnfields (cornerCells s.border)
    ((ringCells s.border).foldl (fun s' c => clearCellTo s' c.1 c.2 0x40) s)
  simp only []
  rw [h2.2.1, h1.2.1, h2.2.2.1, h1.2.2.1]

theorem shrink_turn_step (s : Board) :
    (shrink s).turn_step = s.turn_step / 2 := by
  unfold shrink
  have h1 := foldl_clear_turnfields (ringCells s.border) 0x40 s
  have h2 := foldl_corner_turnfields (cornerCells s.border)
    ((ringCells s.border).foldl (fun s' c => clearCellTo s' c.1 c.2 0x40) s)
  simp only []
  rw [h2.2.2.1, h1.2.2.1]

theorem shrink_border (s : Board) :
    (shrink s).border = 2 * s.border + 1 := by
  unfold shrink
  have h1 := foldl_clear_turnfields (ringCells s.border) 0x40 s
  have h2 := foldl_corner_turnfields (cornerCells s.border)
    ((ringCells s.border).foldl (fun s' c => clearCellTo s' c.1 c.2 0x40) s)
  simp only []
  rw [h2.2.2.2.1, h1.2.2.2.1]
  omega

@[simp] theorem moveSwap_turns (s : Board) (sx sy dx dy : Int) :
    (moveSwap s sx sy dx dy).turns = s.turns := rfl

@[simp] theorem moveResolve_turns (s1 : Board) (p : Nat) (dx dy : Int) :
    (moveResolve s1 p dx dy).turns = s1.turns := by
  unfold moveResolve; split <;> simp

theorem moveCore_turns (s : Board) (sx sy dx dy : Int) :
    (moveCore s sx sy dx dy).turns = s.turns + 1 := by
  unfold moveCore
  simp

end WYB


/-! ## Further operation-level lemmas -/

namespace WYB

@[simp] theorem placeResolve_count (s2 : Board) (piece : Nat) (x y : Int) :
    (placeResolve s2 piece x y).count = s2.count := by
  unfold placeResolve; split <;> simp

end WYB

/-! ## Facts about `_surrounded` and `_elim` -/

namespace WYB

theorem inboard_bounds {s : Board} {x y : Int} (h : inboard s x y = true) :
    0 ≤ x ∧ x < 8 ∧ 0 ≤ y ∧ y < 8 := by
  have hb : 0 ≤ (s.border : Int) := Int.ofNat_nonneg _
  unfold inboard at h
  simp only [Bool.and_eq_true, decide_eq_true_eq] at h
  omega

theorem surrounded_false_of_nonpiece (s : Board) (x y dx dy : Int)
    (h : 0x20 ≤ cellOf s.board x y) : surrounded s x y dx dy = false := by
  simp only [surrounded]
  split_ifs with h1 h2 h3
  · rfl
  · rfl
  · rfl
  · have hd : (2 : Nat) ≤ cellOf s.board x y / 0x10 := by omega
    have he : oppo.getD (cellOf s.board x y / 0x10) [] = [] :=
      List.getD_eq_default _ _ (by simp [oppo]; omega)
    rw [he]
    simp

theorem surrounded_true_parts {s : Board} {x y dx dy : Int}
    (h : surrounded s x y dx dy = true) :
    inboard s (x + dx) (y + dy) = true ∧ inboard s (x - dx) (y - dy) = true ∧
    cellOf s.board x y < 0x20 := by
  have hp : cellOf s.board x y < 0x20 := by
    by_contra hp
    rw [surrounded_false_of_nonpiece s x y dx dy (Nat.le_of_not_lt hp)] at h
    exact Bool.false_ne_true h
  refine ⟨?_, ?_, hp⟩
  · by_contra h1
    rw [Bool.not_eq_true] at h1
    have hf : surrounded s x y dx dy = false := by
      simp only [surrounded, h1]
      simp
    rw [hf] at h
    exact Bool.false_ne_true h
  · by_contra h2
    rw [Bool.not_eq_true] at h2
    have hf : surrounded s x y dx dy = false := by
      simp only [surrounded, h2]
      simp
    rw [hf] at h
    exact Bool.false_ne_true h

theorem surrounded_true_center_range {s : Board} {x y dx dy : Int}
    (h : surrounded s x y dx dy = true) :
    0 ≤ x ∧ x < 8 ∧ 0 ≤ y ∧ y < 8 ∧ cellOf s.board x y < 0x20 := by
  obtain ⟨h1, h2, hp⟩ := surrounded_true_parts h
  obtain ⟨a1, a2, a3, a4⟩ := inboard_bounds h1
  obtain ⟨b1, b2, b3, b4⟩ := inboard_bounds h2
  exact ⟨by omega, by omega, by omega, by omega, hp⟩

theorem gridShape_elimStep {s : Board} (x y : Int) (d : Int × Int)
    (hg : gridShape s.board) : gridShape (elimStep x y s d).board := by
  simp only [elimStep]
  split
  · simp only [clearCellTo_board]
    exact gridShape_gset hg _ _ _
  · exact hg

theorem gridShape_elim_fold (l : List (Int × Int)) (s : Board) (x y : Int)
    (hg : gridShape s.board) :
    gridShape ((l.foldl (elimStep x y) s)).board := by
  induction l generalizing s with
  | nil => exact hg
  | cons d t ih => exact ih _ (gridShape_elimStep x y d hg)

theorem gridShape_elim {s : Board} (x y : Int) (hg : gridShape s.board) :
    gridShape (elim s x y).board :=
  gridShape_elim_fold dirs s x y hg

theorem elimStep_cell {s : Board} {x y : Int} (d : Int × Int) {a b : Int}
    (hg : gridShape s.board) (ha : 0 ≤ a) (ha8 : a < 8) (hb0 : 0 ≤ b)
    (hb8 : b < 8) :
    cellOf (elimStep x y s d).board a b = cellOf s.board a b ∨
    (cellOf (elimStep x y s d).board a b = 0x20 ∧
      cellOf s.board a b < 0x20 ∧ (a, b) = (x + d.1, y + d.2)) := by
  simp only [elimStep]
  split
  case isTrue hs =>
    obtain ⟨c1, c2, c3, c4, c5⟩ := surrounded_true_center_range hs
    simp only [clearCellTo_board]
    rw [cellOf_gset hg _ c1 c2 c3 c4 ha ha8 hb0 hb8]
    by_cases hab : a = x + d.1 ∧ b = y + d.2
    · obtain ⟨rfl, rfl⟩ := hab
      exact Or.inr ⟨by simp, c5, rfl⟩
    · rw [if_neg hab]
      exact Or.inl rfl
  case isFalse => exact Or.inl rfl

theorem elim_fold_cell (l : List (Int × Int)) (s : Board) (x y a b : Int)
    (hg : gridShape s.board) (ha : 0 ≤ a) (ha8 : a < 8) (hb0 : 0 ≤ b)
    (hb8 : b < 8) :
    cellOf ((l.foldl (elimStep x y) s)).board a b = cellOf s.board a b ∨
    cellOf ((l.foldl (elimStep x y) s)).board a b = 0x20 := by
  induction l generalizing s with
  | nil => exact Or.inl rfl
  | cons d t ih =>
    rcases ih (elimStep x y s d) (gridShape_elimStep x y d hg) with h | h
    · rcases elimStep_cell d hg ha ha8 hb0 hb8 with h' | h'
      · exact Or.inl (h.trans h')
      · exact Or.inr (h.trans h'.1)
    · exact Or.inr h

theorem elim_cell_or_empty (s : Board) (x y a b : Int) (hg : gridShape s.board)
    (ha : 0 ≤ a) (ha8 : a < 8) (hb0 : 0 ≤ b) (hb8 : b < 8) :
    cellOf (elim s x y).board a b = cellOf s.board a b ∨
    cellOf (elim s x y).board a b = 0x20 :=
  elim_fold_cell dirs s x y a b hg ha ha8 hb0 hb8

theorem elim_fold_nonpiece (l : List (Int × Int)) (s : Board) (x y a b : Int)
    (hg : gridShape s.board) (ha : 0 ≤ a) (ha8 : a < 8) (hb0 : 0 ≤ b)
    (hb8 : b < 8) (h : 0x20 ≤ cellOf s.board a b) :
    cellOf ((l.foldl (elimStep x y) s)).board a b = cellOf s.board a b := by
  induction l generalizing s with
  | nil => rfl
  | cons d t ih =>
    have hstep : cellOf (elimStep x y s d).board a b = cellOf s.board a b := by
      rcases elimStep_cell d hg ha ha8 hb0 hb8 with h' | h'
      · exact h'
      · omega
    rw [List.foldl_cons,
      ih (elimStep x y s d) (gridShape_elimStep x y d hg) (hstep ▸ h), hstep]

theorem elim_nonpiece (s : Board) (x y a b : Int) (hg : gridShape s.board)
    (ha : 0 ≤ a) (ha8 : a < 8) (hb0 : 0 ≤ b) (hb8 : b < 8)
    (h : 0x20 ≤ cellOf s.board a b) :
    cellOf (elim s x y).board a b = cellOf s.board a b :=
  elim_fold_nonpiece dirs s x y a b hg ha ha8 hb0 hb8 h

theorem elim_fold_center (l : List (Int × Int)) (s : Board) (x y : Int)
    (hl : ∀ d ∈ l, ¬(d.1 = 0 ∧ d.2 = 0)) (hg : gridShape s.board)
    (hx : 0 ≤ x) (hx8 : x < 8) (hy : 0 ≤ y) (hy8 : y < 8) :
    cellOf ((l.foldl (elimStep x y) s)).board x y = cellOf s.board x y := by
  induction l generalizing s with
  | nil => rfl
  | cons d t ih =>
    have hstep : cellOf (elimStep x y s d).board x y = cellOf s.board x y := by
      rcases elimStep_cell d hg hx hx8 hy hy8 with h' | h'
      · exact h'
      · exfalso
        have := h'.2.2
        rw [Prod.ext_iff] at this
        exact hl d (List.mem_cons_self d t) ⟨by omega, by omega⟩
    rw [List.foldl_cons, ih _ (fun d hd => hl d (List.mem_cons_of_mem _ hd))
      (gridShape_elimStep x y d hg), hstep]

theorem elim_center (s : Board) (x y : Int) (hg : gridShape s.board)
    (hx : 0 ≤ x) (hx8 : x < 8) (hy : 0 ≤ y) (hy8 : y < 8) :
    cellOf (elim s x y).board x y = cellOf s.board x y := by
  refine elim_fold_center dirs s x y ?_ hg hx hx8 hy hy8
  intro d hd
  simp only [dirs, List.mem_cons, List.not_mem_nil, or_false] at hd
  rcases hd with h | h | h | h <;> (subst h; simp)

end WYB

/-! ## Cell characterization of `_shrink` -/

namespace WYB

theorem ringCells_bounds {b : Nat} (hb : b ≤ 3) :
    ∀ c ∈ ringCells b, 0 ≤ c.1 ∧ c.1 < 8 ∧ 0 ≤ c.2 ∧ c.2 < 8 := by
  intro c hc
  simp only [ringCells, List.mem_flatMap, List.mem_range] at hc
  obtain ⟨k, hk, hmem⟩ := hc
  simp only [List.mem_cons, List.not_mem_nil, or_false] at hmem
  rcases hmem with h | h | h | h <;> (subst h; constructor <;> simp <;> omega)

theorem cornerCells_bounds {b : Nat} (hb : b ≤ 6) :
    ∀ c ∈ cornerCells b, 0 ≤ c.1 ∧ c.1 < 8 ∧ 0 ≤ c.2 ∧ c.2 < 8 := by
  intro c hc
  simp only [cornerCells, List.mem_cons, List.not_mem_nil, or_false] at hc
  rcases hc with h | h | h | h <;> (subst h; constructor <;> simp <;> omega)

theorem ring_corner_disjoint {b : Nat} (hb : b ≤ 2) {c : Int × Int}
    (hr : c ∈ ringCells b) : c ∉ cornerCells b := by
  intro hc
  simp only [ringCells, List.mem_flatMap, List.mem_range] at hr
  obtain ⟨k, hk, hmem⟩ := hr
  simp only [List.mem_cons, List.not_mem_nil, or_false] at hmem
  simp only [cornerCells, List.mem_cons, List.not_mem_nil, or_false] at hc
  rcases hmem with h | h | h | h <;> subst h <;>
    rcases hc with h' | h' | h' | h' <;>
      (rw [Prod.ext_iff] at h'; simp at h' <;> omega)

theorem gridShape_foldl_clear (l : List (Int × Int)) (v : Nat) (s : Board)
    (hg : gridShape s.board) :
    gridShape ((l.foldl (fun s' c => clearCellTo s' c.1 c.2 v) s)).board := by
  induction l generalizing s with
  | nil => exact hg
  | cons c t ih =>
    apply ih
    simp only [clearCellTo_board]
    exact gridShape_gset hg _ _ _

theorem foldl_clear_cell (l : List (Int × Int)) (v : Nat) (s : Board)
    (a b : Int) (hg : gridShape s.board) (ha : 0 ≤ a) (ha8 : a < 8)
    (hb0 : 0 ≤ b) (hb8 : b < 8)
    (hl : ∀ c ∈ l, 0 ≤ c.1 ∧ c.1 < 8 ∧ 0 ≤ c.2 ∧ c.2 < 8) :
    cellOf ((l.foldl (fun s' c => clearCellTo s' c.1 c.2 v) s)).board a b
      = if (a, b) ∈ l then v else cellOf s.board a b := by
  induction l generalizing s with
  | nil => simp
  | cons c t ih =>
    obtain ⟨c1, c2, c3, c4⟩ := hl c (List.mem_cons_self c t)
    have hg' : gridShape (clearCellTo s c.1 c.2 v).board := by
      simp only [clearCellTo_board]; exact gridShape_gset hg _ _ _
    rw [List.foldl_cons, ih _ hg' (fun d hd => hl d (List.mem_cons_of_mem _ hd))]
    simp only [clearCellTo_board]
    rw [cellOf_gset hg v c1 c2 c3 c4 ha ha8 hb0 hb8]
    by_cases hmem : (a, b) ∈ t
    · simp [hmem]
    · by_cases hab : (a, b) = c
      · subst hab
        simp [hmem]
      · have : ¬(a = c.1 ∧ b = c.2) := by
          rw [Prod.ext_iff] at hab; tauto
        simp [hmem, hab, this]

theorem gridShape_foldl_corner (l : List (Int × Int)) (s : Board)
    (hg : gridShape s.board) :
    gridShape ((l.foldl
      (fun s' c => elim (clearCellTo s' c.1 c.2 0x30) c.1 c.2) s)).board := by
  induction l generalizing s with
  | nil => exact hg
  | cons c t ih =>
    apply ih
    apply gridShape_elim
    simp only [clearCellTo_board]
    exact gridShape_gset hg _ _ _

theorem foldl_corner_nonpiece (l : List (Int × Int)) (s : Board) (a b : Int)
    (hg : gridShape s.board) (ha : 0 ≤ a) (ha8 : a < 8) (hb0 : 0 ≤ b)
    (hb8 : b < 8)
    (hl : ∀ c ∈ l, 0 ≤ c.1 ∧ c.1 < 8 ∧ 0 ≤ c.2 ∧ c.2 < 8)
    (hmem : (a, b) ∉ l) (h : 0x20 ≤ cellOf s.board a b) :
    cellOf ((l.foldl
      (fun s' c => elim (clearCellTo s' c.1 c.2 0x30) c.1 c.2) s)).board a b
      = cellOf s.board a b := by
  induction l generalizing s with
  | nil => rfl
  | cons c t ih =>
    obtain ⟨c1, c2, c3, c4⟩ := hl c (List.mem_cons_self c t)
    have hg1 : gridShape (clearCellTo s c.1 c.2 0x30).board := by
      simp only [clearCellTo_board]; exact gridShape_gset hg _ _ _
    have hab : ¬(a = c.1 ∧ b = c.2) := by
      intro hh
      exact hmem (by rw [List.mem_cons]; left; rw [Prod.ext_iff]; exact hh)
    have hclear : cellOf (clearCellTo s c.1 c.2 0x30).board a b
        = cellOf s.board a b := by
      simp only [clearCellTo_board]
      rw [cellOf_gset hg _ c1 c2 c3 c4 ha ha8 hb0 hb8, if_neg hab]
    have helim : cellOf (elim (clearCellTo s c.1 c.2 0x30) c.1 c.2).board a b
        = cellOf s.board a b := by
      rw [elim_nonpiece _ _ _ _ _ hg1 ha ha8 hb0 hb8 (by rw [hclear]; exact h),
        hclear]
    rw [List.foldl_cons,
      ih _ (gridShape_elim _ _ hg1) (fun d hd => hl d (List.mem_cons_of_mem _ hd))
        (fun hh => hmem (List.mem_cons_of_mem _ hh)) (by rw [helim]; exact h),
      helim]

theorem foldl_corner_cell_mem (l : List (Int × Int)) (s : Board) (a b : Int)
    (hg : gridShape s.board) (ha : 0 ≤ a) (ha8 : a < 8) (hb0 : 0 ≤ b)
    (hb8 : b < 8)
    (hl : ∀ c ∈ l, 0 ≤ c.1 ∧ c.1 < 8 ∧ 0 ≤ c.2 ∧ c.2 < 8)
    (hmem : (a, b) ∈ l) :
    cellOf ((l.foldl
      (fun s' c => elim (clearCellTo s' c.1 c.2 0x30) c.1 c.2) s)).board a b
      = 0x30 := by
  induction l generalizing s with
  | nil => cases hmem
  | cons c t ih =>
    obtain ⟨c1, c2, c3, c4⟩ := hl c (List.mem_cons_self c t)
    have hg1 : gridShape (clearCellTo s c.1 c.2 0x30).board := by
      simp only [clearCellTo_board]; exact gridShape_gset hg _ _ _
    rw [List.foldl_cons]
    by_cases hmt : (a, b) ∈ t
    · exact ih _ (gridShape_elim _ _ hg1)
        (fun d hd => hl d (List.mem_cons_of_mem _ hd)) hmt
    · have hab : (a, b) = c := by
        rcases List.mem_cons.mp hmem with h | h
        · exact h
        · exact absurd h hmt
      subst hab
      have hclear : cellOf (clearCellTo s a b 0x30).board a b = 0x30 := by
        simp only [clearCellTo_board]
        rw [cellOf_gset hg _ ha ha8 hb0 hb8 ha ha8 hb0 hb8]
        simp
      have helim : cellOf (elim (clearCellTo s a b 0x30) a b).board a b
          = 0x30 := by
        rw [elim_nonpiece _ _ _ _ _ hg1 ha ha8 hb0 hb8 (by rw [hclear]; omega),
          hclear]
      rw [foldl_corner_nonpiece t _ a b (gridShape_elim _ _ hg1) ha ha8 hb0 hb8
        (fun d hd => hl d (List.mem_cons_of_mem _ hd)) hmt
        (by rw [helim]; omega), helim]

theorem foldl_corner_cell_notmem (l : List (Int × Int)) (s : Board) (a b : Int)
    (hg : gridShape s.board) (ha : 0 ≤ a) (ha8 : a < 8) (hb0 : 0 ≤ b)
    (hb8 : b < 8)
    (hl : ∀ c ∈ l, 0 ≤ c.1 ∧ c.1 < 8 ∧ 0 ≤ c.2 ∧ c.2 < 8)
    (hmem : (a, b) ∉ l) :
    cellOf ((l.foldl
      (fun s' c => elim (clearCellTo s' c.1 c.2 0x30) c.1 c.2) s)).board a b
      = cellOf s.board a b ∨
    cellOf ((l.foldl
      (fun s' c => elim (clearCellTo s' c.1 c.2 0x30) c.1 c.2) s)).board a b
      = 0x20 := by
  induction l generalizing s with
  | nil => exact Or.inl rfl
  | cons c t ih =>
    obtain ⟨c1, c2, c3, c4⟩ := hl c (List.mem_cons_self c t)
    have hg1 : gridShape (clearCellTo s c.1 c.2 0x30).board := by
      simp only [clearCellTo_board]; exact gridShape_gset hg _ _ _
    have hab : ¬(a = c.1 ∧ b = c.2) := by
      intro hh
      exact hmem (by rw [List.mem_cons]; left; rw [Prod.ext_iff]; exact hh)
    have hclear : cellOf (clearCellTo s c.1 c.2 0x30).board a b
        = cellOf s.board a b := by
      simp only [clearCellTo_board]
      rw [cellOf_gset hg _ c1 c2 c3 c4 ha ha8 hb0 hb8, if_neg hab]
    rw [List.foldl_cons]
    rcases ih (elim (clearCellTo s c.1 c.2 0x30) c.1 c.2)
        (gridShape_elim _ _ hg1) (fun d hd => hl d (List.mem_cons_of_mem _ hd))
        (fun hh => hmem (List.mem_cons_of_mem _ hh)) with h | h
    · rcases elim_cell_or_empty (clearCellTo s c.1 c.2 0x30) c.1 c.2 a b hg1
          ha ha8 hb0 hb8 with h' | h'
      · exact Or.inl (by rw [h, h', hclear])
      · exact Or.inr (by rw [h, h'])
    · exact Or.inr h

/-- Full cell-level description of one `_shrink` on a low border: ring-`b`
perimeter cells become `0x40`; the four `cornerCells` become `0x30`; every
other cell either keeps its value or is emptied by the capture re-check. -/
theorem shrink_cells (s : Board) (hg : gridShape s.board)
    (hb : s.border ≤ 2) (a b : Int) (ha : 0 ≤ a) (ha8 : a < 8) (hb0 : 0 ≤ b)
    (hb8 : b < 8) :
    ((a, b) ∈ ringCells s.border →
      cellOf (shrink s).board a b = 0x40) ∧
    ((a, b) ∈ cornerCells s.border →
      cellOf (shrink s).board a b = 0x30) ∧
    ((a, b) ∉ ringCells s.border → (a, b) ∉ cornerCells s.border →
      cellOf (shrink s).board a b = cellOf s.board a b ∨
      cellOf (shrink s).board a b = 0x20) := by
  have hrb := ringCells_bounds (by omega : s.border ≤ 3)
  have hcb := cornerCells_bounds (by omega : s.border ≤ 6)
  have hg1 : gridShape ((ringCells s.border).foldl
      (fun s' c => clearCellTo s' c.1 c.2 0x40) s).board :=
    gridShape_foldl_clear _ _ _ hg
  have hring := foldl_clear_cell (ringCells s.border) 0x40 s a b hg
    ha ha8 hb0 hb8 hrb
  have hshrink : (shrink s).board = ((cornerCells s.border).foldl
      (fun s' c => elim (clearCellTo s' c.1 c.2 0x30) c.1 c.2)
      ((ringCells s.border).foldl (fun s' c => clearCellTo s' c.1 c.2 0x40) s)).board := by
    simp only [shrink]
  refine ⟨?_, ?_, ?_⟩
  · intro hmem
    have hnc : (a, b) ∉ cornerCells s.border := ring_corner_disjoint hb hmem
    rw [hshrink, foldl_corner_nonpiece _ _ _ _ hg1 ha ha8 hb0 hb8 hcb hnc
      (by rw [hring, if_pos hmem]; omega), hring, if_pos hmem]
  · intro hmem
    rw [hshrink]
    exact foldl_corner_cell_mem _ _ _ _ hg1 ha ha8 hb0 hb8 hcb hmem
  · intro hr hc
    rw [hshrink]
    rcases foldl_corner_cell_notmem _ _ a b hg1 ha ha8 hb0 hb8 hcb hc with h | h
    · rw [h, hring, if_neg hr]
      exact Or.inl rfl
    · exact Or.inr h

end WYB

/-! ## Counter dynamics of `move` -/

namespace WYB

@[simp] theorem moveSwap_turn_thres (s : Board) (sx sy dx dy : Int) :
    (moveSwap s sx sy dx dy).turn_thres = s.turn_thres := rfl

@[simp] theorem moveSwap_turn_step (s : Board) (sx sy dx dy : Int) :
    (moveSwap s sx sy dx dy).turn_step = s.turn_step := rfl

@[simp] theorem moveResolve_turn_thres (s1 : Board) (p : Nat) (dx dy : Int) :
    (moveResolve s1 p dx dy).turn_thres = s1.turn_thres := by
  unfold moveResolve; split <;> simp

@[simp] theorem moveResolve_turn_step (s1 : Board) (p : Nat) (dx dy : Int) :
    (moveResolve s1 p dx dy).turn_step = s1.turn_step := by
  unfold moveResolve; split <;> simp

theorem moveCore_turn_thres (s : Board) (sx sy dx dy : Int) :
    (moveCore s sx sy dx dy).turn_thres = s.turn_thres := by
  unfold moveCore
  simp

theorem moveCore_turn_step (s : Board) (sx sy dx dy : Int) :
    (moveCore s sx sy dx dy).turn_step = s.turn_step := by
  unfold moveCore
  simp

theorem move_eq_moveCore {s : Board} {sx sy dx dy : Int}
    (h : (moveCore s sx sy dx dy).turns ≠ (moveCore s sx sy dx dy).turn_thres) :
    move s sx sy dx dy = moveCore s sx sy dx dy := by
  simp only [move]
  rw [if_neg h]

theorem move_eq_shrink {s : Board} {sx sy dx dy : Int}
    (h : (moveCore s sx sy dx dy).turns = (moveCore s sx sy dx dy).turn_thres) :
    move s sx sy dx dy = shrink (moveCore s sx sy dx dy) := by
  simp only [move]
  rw [if_pos h]

theorem applyMoves_cons (s : Board) (m : Int × Int × Int × Int)
    (r : List (Int × Int × Int × Int)) :
    applyMoves s (m :: r) = applyMoves (move s m.1 m.2.1 m.2.2.1 m.2.2.2) r := rfl

theorem applyMoves_nil (s : Board) : applyMoves s [] = s := rfl

theorem applyMoves_no_shrink (ms : List (Int × Int × Int × Int)) (s : Board)
    (h : s.turns + ms.length < s.turn_thres) :
    (applyMoves s ms).turns = s.turns + ms.length ∧
    (applyMoves s ms).turn_thres = s.turn_thres ∧
    (applyMoves s ms).turn_step = s.turn_step := by
  induction ms generalizing s with
  | nil => simp [applyMoves]
  | cons m r ih =>
    simp only [List.length_cons] at h
    have hne : (moveCore s m.1 m.2.1 m.2.2.1 m.2.2.2).turns
        ≠ (moveCore s m.1 m.2.1 m.2.2.1 m.2.2.2).turn_thres := by
      rw [moveCore_turns, moveCore_turn_thres]
      omega
    obtain ⟨ih1, ih2, ih3⟩ := ih (moveCore s m.1 m.2.1 m.2.2.1 m.2.2.2)
      (by rw [moveCore_turns, moveCore_turn_thres]; omega)
    refine ⟨?_, ?_, ?_⟩
    · rw [applyMoves_cons, move_eq_moveCore hne, ih1, moveCore_turns]
      simp only [List.length_cons]
      omega
    · rw [applyMoves_cons, move_eq_moveCore hne, ih2, moveCore_turn_thres]
    · rw [applyMoves_cons, move_eq_moveCore hne, ih3, moveCore_turn_step]

theorem applyMoves_one_shrink (ms : List (Int × Int × Int × Int)) (s : Board)
    (hpos : ms ≠ []) (h : s.turns + ms.length = s.turn_thres) :
    (applyMoves s ms).turns = s.turn_thres ∧
    (applyMoves s ms).turn_thres = s.turn_thres + s.turn_step ∧
    (applyMoves s ms).turn_step = s.turn_step / 2 := by
  induction ms generalizing s with
  | nil => cases hpos rfl
  | cons m r ih =>
    simp only [List.length_cons] at h
    rcases eq_or_ne r [] with rfl | hr
    · simp only [List.length_nil] at h
      have heq : (moveCore s m.1 m.2.1 m.2.2.1 m.2.2.2).turns
          = (moveCore s m.1 m.2.1 m.2.2.1 m.2.2.2).turn_thres := by
        rw [moveCore_turns, moveCore_turn_thres]
        omega
      rw [applyMoves_cons, move_eq_shrink heq, applyMoves_nil]
      rw [shrink_turns, shrink_turn_thres, shrink_turn_step, moveCore_turns,
        moveCore_turn_thres, moveCore_turn_step]
      omega
    · have hrlen : 0 < r.length := List.length_pos.mpr hr
      have hne : (moveCore s m.1 m.2.1 m.2.2.1 m.2.2.2).turns
          ≠ (moveCore s m.1 m.2.1 m.2.2.1 m.2.2.2).turn_thres := by
        rw [moveCore_turns, moveCore_turn_thres]
        omega
      obtain ⟨ih1, ih2, ih3⟩ := ih (moveCore s m.1 m.2.1 m.2.2.1 m.2.2.2) hr
        (by rw [moveCore_turns, moveCore_turn_thres]; omega)
      refine ⟨?_, ?_, ?_⟩
      · rw [applyMoves_cons, move_eq_moveCore hne, ih1, moveCore_turn_thres]
      · rw [applyMoves_cons, move_eq_moveCore hne, ih2, moveCore_turn_thres,
          moveCore_turn_step]
      · rw [applyMoves_cons, move_eq_moveCore hne, ih3, moveCore_turn_step]

end WYB

/-! ## The concrete 128-move shuttle run, evaluated in bounded chunks -/

namespace WYB

theorem applyMoves_append (s : Board) (a b : List (Int × Int × Int × Int)) :
    applyMoves s (a ++ b) = applyMoves (applyMoves s a) b := by
  simp [applyMoves, List.foldl_append]

theorem validSeq_append (s : Board) (a b : List (Int × Int × Int × Int)) :
    validSeq s (a ++ b) = (validSeq s a && validSeq (applyMoves s a) b) := by
  induction a generalizing s with
  | nil => simp [validSeq, applyMoves_nil]
  | cons m r ih =>
    simp only [List.cons_append, validSeq, applyMoves_cons, List.append_eq]
    rw [ih, Bool.and_assoc]

set_option maxRecDepth 6000 in
theorem s0C_eq : s0C = sShut 0 := by decide

set_option maxRecDepth 6000 in
theorem shuttle_steps : ((List.range 63).all fun i =>
    applyMoves (sShut (2 * i)) ms2 == sShut (2 * i + 2)) = true := by
  decide

set_option maxRecDepth 6000 in
theorem shuttle_last : applyMoves (sShut 126) ms2 = sFin := by decide

set_option maxRecDepth 6000 in
theorem shuttle_valid : ((List.range 64).all fun i =>
    validSeq (sShut (2 * i)) ms2) = true := by
  decide

theorem run_prefix (j : Nat) (hj : j ≤ 63) :
    applyMoves (sShut 0) ((List.range j).flatMap fun _ => ms2) = sShut (2 * j) ∧
    validSeq (sShut 0) ((List.range j).flatMap fun _ => ms2) = true := by
  induction j with
  | zero => exact ⟨rfl, rfl⟩
  | succ n ih =>
    obtain ⟨e1, v1⟩ := ih (by omega)
    have hflat : (List.range (n + 1)).flatMap (fun _ => ms2)
        = ((List.range n).flatMap fun _ => ms2) ++ ms2 := by
      rw [List.range_succ, List.flatMap_append]
      simp
    have hstep : applyMoves (sShut (2 * n)) ms2 = sShut (2 * n + 2) := by
      have hall := shuttle_steps
      rw [List.all_eq_true] at hall
      exact eq_of_beq (hall n (by rw [List.mem_range]; omega))
    have hvalid : validSeq (sShut (2 * n)) ms2 = true := by
      have hall := shuttle_valid
      rw [List.all_eq_true] at hall
      exact hall n (by rw [List.mem_range]; omega)
    constructor
    · rw [hflat, applyMoves_append, e1, hstep]
      have : 2 * n + 2 = 2 * (n + 1) := by omega
      rw [this]
    · rw [hflat, validSeq_append, e1, v1, hvalid]
      rfl

theorem run_s0C : applyMoves s0C msC = sFin ∧ validSeq s0C msC = true := by
  obtain ⟨e1, v1⟩ := run_prefix 63 (le_refl 63)
  have hflat : msC = ((List.range 63).flatMap fun _ => ms2) ++ ms2 := by
    show (List.range 64).flatMap _ = _
    rw [List.range_succ, List.flatMap_append]
    simp
  have hvalid : validSeq (sShut 126) ms2 = true := by
    have hall := shuttle_valid
    rw [List.all_eq_true] at hall
    have h := hall 63 (by rw [List.mem_range]; omega)
    norm_num at h
    exact h
  have h126 : (2 : Nat) * 63 = 126 := by norm_num
  constructor
  · rw [s0C_eq, hflat, applyMoves_append, e1, h126, shuttle_last]
  · rw [s0C_eq, hflat, validSeq_append, e1, v1, h126, hvalid]
    rfl

end WYB

/-! ## Registry access lemmas and invariant preservation -/

namespace WYB

theorem getD_mem {α : Type _} {l : List α} {i : Nat} (h : i < l.length) (d : α) :
    l.getD i d ∈ l := by
  rw [List.getD_eq_getElem _ _ h]
  exact List.getElem_mem h

theorem regGet_regSet (s : Board) (t i : Nat) (v : Option (Int × Int))
    (t' i' : Nat) (hpl : s.pieces.length = 2)
    (hsl : ∀ l ∈ s.pieces, l.length = 12) (ht : t < 2) (hi : i < 12) :
    regGet (regSet s t i v) t' i' =
      if t = t' ∧ i = i' then v else regGet s t' i' := by
  have htl : t < s.pieces.length := by omega
  have hrow : (s.pieces.getD t []).length = 12 := hsl _ (getD_mem htl [])
  unfold regGet regSet
  simp only []
  rw [getD_set']
  by_cases htt : t = t'
  · subst htt
    rw [if_pos ⟨rfl, htl⟩, getD_set']
    by_cases hii : i = i'
    · subst hii
      rw [if_pos ⟨rfl, by omega⟩, if_pos ⟨rfl, rfl⟩]
    · rw [if_neg (by tauto), if_neg (by tauto)]
  · rw [if_neg (by tauto), if_neg (by tauto)]

theorem regGet_delete_rec (s : Board) (p : Nat) (t' i' : Nat)
    (hpl : s.pieces.length = 2) (hsl : ∀ l ∈ s.pieces, l.length = 12)
    (hp : p < 0x20) (hp12 : p % 16 < 12) :
    regGet (delete_rec s p) t' i' =
      if p / 16 = t' ∧ p % 16 = i' then none else regGet s t' i' := by
  have hpt : p / 16 < 2 := by omega
  unfold delete_rec
  rw [if_neg (by omega)]
  show regGet ({ regSet s (p / 0x10) (p % 0x10) none with
    num_pieces := _ } : Board) t' i' = _
  have : regGet ({ regSet s (p / 0x10) (p % 0x10) none with
      num_pieces := (regSet s (p / 0x10) (p % 0x10) none).num_pieces.set
        (p / 0x10) ((regSet s (p / 0x10) (p % 0x10) none).num_pieces.getD
          (p / 0x10) 0 - 1) } : Board) t' i'
      = regGet (regSet s (p / 0x10) (p % 0x10) none) t' i' := rfl
  rw [this, regGet_regSet s _ _ _ _ _ hpl hsl hpt hp12]

theorem delete_rec_num_pieces_nonpiece (s : Board) (p : Nat)
    (hp : 0x20 ≤ p) : delete_rec s p = s := by
  unfold delete_rec
  rw [if_pos hp]

/-- Weakening: the full invariant gives the invariant with any exemption. -/
theorem InvE_weaken {s : Board} (e : Nat) (hI : InvE s 0x20) : InvE s e := by
  refine ⟨hI.shape, hI.countLen, hI.npLen, hI.regLen, hI.slotLen, hI.codes,
    ?_, ?_, hI.fresh, hI.live⟩
  · intro t i x y ht hi _ hreg
    exact hI.reg2grid t i x y ht hi (by omega) hreg
  · intro x y hx hx8 hy hy8 hc _
    exact hI.grid2reg x y hx hx8 hy hy8 hc (by omega)

/-- Clearing a cell (the `_delete_rec` + overwrite pattern) preserves the
invariant, provided the cleared cell does not hold the exempt piece and the
written value is a non-piece code. -/
theorem InvE_clear {s : Board} {e : Nat} (x y : Int) (v : Nat)
    (hI : InvE s e) (hx : 0 ≤ x) (hx8 : x < 8) (hy : 0 ≤ y) (hy8 : y < 8)
    (hv : v = 0x20 ∨ v = 0x30 ∨ v = 0x40)
    (hne : cellOf s.board x y < 0x20 → cellOf s.board x y ≠ e) :
    InvE (clearCellTo s x y v) e := by
  obtain ⟨hsh, hcl, hnl, hrl, hstl, hcodes, hr2g, hg2r, hfresh, hlive⟩ := hI
  have hboard : (clearCellTo s x y v).board = gset s.board x y v :=
    clearCellTo_board s x y v
  by_cases hp : 0x20 ≤ cellOf s.board x y
  · -- the cleared cell held no piece: the registry part is untouched
    have hdel : delete_rec s (cellOf s.board x y) = s :=
      delete_rec_num_pieces_nonpiece s _ hp
    have hstate : clearCellTo s x y v = { s with board := gset s.board x y v } := by
      unfold clearCellTo
      rw [hdel]
    rw [hstate]
    refine ⟨gridShape_gset hsh x y v, hcl, hnl, hrl, hstl, ?_, ?_, ?_, hfresh, hlive⟩
    · intro a b ha ha8 hb hb8
      show (cellOf (gset s.board x y v) a b = 0x20) ∨ _
      rw [cellOf_gset hsh v hx hx8 hy hy8 ha ha8 hb hb8]
      split
      · rcases hv with h | h | h <;> simp [h]
      · exact hcodes a b ha ha8 hb hb8
    · intro t i a b ht hi hcne hreg
      obtain ⟨ha, ha8, hb, hb8, hcell⟩ := hr2g t i a b ht hi hcne hreg
      refine ⟨ha, ha8, hb, hb8, ?_⟩
      show cellOf (gset s.board x y v) a b = _
      rw [cellOf_gset hsh v hx hx8 hy hy8 ha ha8 hb hb8, if_neg ?_, hcell]
      rintro ⟨rfl, rfl⟩
      omega
    · intro a b ha ha8 hb hb8 hcell hcne
      revert hcell hcne
      show cellOf (gset s.board x y v) a b < 0x20 → _ → _
      rw [cellOf_gset hsh v hx hx8 hy hy8 ha ha8 hb hb8]
      split
      · intro hlt
        rcases hv with h | h | h <;> omega
      · intro hlt hcne
        exact hg2r a b ha ha8 hb hb8 hlt hcne
  · -- a piece is cleared: its registry slot is emptied alongside
    push_neg at hp
    have hpe : cellOf s.board x y ≠ e := hne hp
    have hp12 : cellOf s.board x y % 16 < 12 := by
      rcases hcodes x y hx hx8 hy hy8 with h | h | h | h <;> omega
    have hpt : cellOf s.board x y / 16 < 2 := by omega
    have hslot : regGet s (cellOf s.board x y / 16) (cellOf s.board x y % 16)
        = some (x, y) := hg2r x y hx hx8 hy hy8 hp hpe
    -- describe the state
    have hreg' : ∀ t' i', regGet (clearCellTo s x y v) t' i' =
        if cellOf s.board x y / 16 = t' ∧ cellOf s.board x y % 16 = i' then none
        else regGet s t' i' := by
      intro t' i'
      have : regGet (clearCellTo s x y v) t' i'
          = regGet (delete_rec s (cellOf s.board x y)) t' i' := rfl
      rw [this, regGet_delete_rec s _ _ _ hrl hstl hp hp12]
    have hpieces : (clearCellTo s x y v).pieces
        = s.pieces.set (cellOf s.board x y / 16)
          ((s.pieces.getD (cellOf s.board x y / 16) []).set
            (cellOf s.board x y % 16) none) := by
      show (delete_rec s (cellOf s.board x y)).pieces = _
      unfold delete_rec
      rw [if_neg (by omega)]
      rfl
    have hnum : (clearCellTo s x y v).num_pieces
        = s.num_pieces.set (cellOf s.board x y / 16)
          (s.num_pieces.getD (cellOf s.board x y / 16) 0 - 1) := by
      show (delete_rec s (cellOf s.board x y)).num_pieces = _
      unfold delete_rec
      rw [if_neg (by omega)]
      rfl
    refine ⟨?_, ?_, ?_, ?_, ?_, ?_, ?_, ?_, ?_, ?_⟩
    · rw [hboard]
      exact gridShape_gset hsh x y v
    · show (delete_rec s (cellOf s.board x y)).count.length = 2
      rw [delete_rec_count]
      exact hcl
    · rw [hnum]
      simpa using hnl
    · rw [hpieces]
      simpa using hrl
    · -- slot lengths
      intro l hl
      rw [hpieces] at hl
      rcases List.mem_or_eq_of_mem_set hl with h | h
      · exact hstl l h
      · subst h
        have : (s.pieces.getD (cellOf s.board x y / 16) []).length = 12 :=
          hstl _ (getD_mem (by omega) [])
        simpa using this
    · -- codes
      intro a b ha ha8 hb hb8
      rw [hboard, cellOf_gset hsh v hx hx8 hy hy8 ha ha8 hb hb8]
      split
      · rcases hv with h | h | h <;> simp [h]
      · exact hcodes a b ha ha8 hb hb8
    · -- reg2grid
      intro t i a b ht hi hcne hreg
      rw [hreg'] at hreg
      split at hreg
      · cases hreg
      · rename_i hslotne
        obtain ⟨ha, ha8, hb, hb8, hcell⟩ := hr2g t i a b ht hi hcne hreg
        refine ⟨ha, ha8, hb, hb8, ?_⟩
        rw [hboard, cellOf_gset hsh v hx hx8 hy hy8 ha ha8 hb hb8, if_neg ?_,
          hcell]
        rintro ⟨rfl, rfl⟩
        apply hslotne
        constructor <;> omega
    · -- grid2reg
      intro a b ha ha8 hb hb8 hcell hcne
      rw [hboard, cellOf_gset hsh v hx hx8 hy hy8 ha ha8 hb hb8] at hcell hcne ⊢
      by_cases hab : a = x ∧ b = y
      · rw [if_pos hab] at hcell
        rcases hv with h | h | h <;> omega
      · rw [if_neg hab] at hcell hcne ⊢
        have hold := hg2r a b ha ha8 hb hb8 hcell hcne
        rw [hreg', if_neg ?_]
        · exact hold
        · -- the deleted slot belongs to the piece at (x,y), not to this one
          rintro ⟨hdiv, hmod⟩
          have heq : cellOf s.board a b = cellOf s.board x y := by omega
          rw [heq, hslot] at hold
          simp only [Option.some.injEq, Prod.mk.injEq] at hold
          exact hab ⟨hold.1.symm, hold.2.symm⟩
    · -- fresh
      intro t i ht hi hcnt
      rw [clearCellTo_count] at hcnt
      rw [hreg']
      split
      · rfl
      · exact hfresh t i ht hi hcnt
    · -- live
      intro t ht
      rw [hnum, hpieces]
      by_cases htt : cellOf s.board x y / 16 = t
      · subst htt
        have hrow : (s.pieces.getD (cellOf s.board x y / 16) []).length = 12 :=
          hstl _ (getD_mem (by omega) [])
        have hc1 : cellOf s.board x y / 16 = cellOf s.board x y / 16 ∧
            cellOf s.board x y / 16 < s.num_pieces.length := ⟨rfl, by omega⟩
        have hc2 : cellOf s.board x y / 16 = cellOf s.board x y / 16 ∧
            cellOf s.board x y / 16 < s.pieces.length := ⟨rfl, by omega⟩
        rw [getD_set', if_pos hc1, getD_set', if_pos hc2]
        have hcount := countP_set (s.pieces.getD (cellOf s.board x y / 16) [])
          (cellOf s.board x y % 16) none (fun o => o.isSome) (by omega)
        have hget : (s.pieces.getD (cellOf s.board x y / 16) []).getD
            (cellOf s.board x y % 16) none = some (x, y) := hslot
        rw [hget, if_pos (show ((some (x, y) : Option (Int × Int)).isSome = true)
          from rfl), if_neg (show ¬((none : Option (Int × Int)).isSome = true)
          by simp)] at hcount
        have hlv := hlive (cellOf s.board x y / 16) (by omega)
        omega
      · have hc1 : ¬(cellOf s.board x y / 16 = t ∧
            t < s.num_pieces.length) := by tauto
        have hc2 : ¬(cellOf s.board x y / 16 = t ∧ t < s.pieces.length) := by
          tauto
        rw [getD_set', if_neg hc1, getD_set', if_neg hc2]
        exact hlive t ht

theorem InvE_elimStep (d : Int × Int) (s : Board) (x y : Int) (e : Nat)
    (hI : InvE s e) (hd : ¬(d.1 = 0 ∧ d.2 = 0))
    (huniq : e < 0x20 → ∀ a b : Int, 0 ≤ a → a < 8 → 0 ≤ b → b < 8 →
      cellOf s.board a b = e → (a, b) = (x, y)) :
    InvE (elimStep x y s d) e ∧
    (e < 0x20 → ∀ a b : Int, 0 ≤ a → a < 8 → 0 ≤ b → b < 8 →
      cellOf (elimStep x y s d).board a b = e → (a, b) = (x, y)) ∧
    (∀ t i : Nat, regGet (elimStep x y s d) t i = regGet s t i ∨
      regGet (elimStep x y s d) t i = none) ∧
    (e < 0x20 → regGet (elimStep x y s d) (e / 16) (e % 16)
      = regGet s (e / 16) (e % 16)) := by
  simp only [elimStep]
  split
  case isFalse => exact ⟨hI, huniq, fun t i => Or.inl rfl, fun _ => rfl⟩
  case isTrue hs =>
    obtain ⟨c1, c2, c3, c4, c5⟩ := surrounded_true_center_range hs
    have hcne : cellOf s.board (x + d.1) (y + d.2) ≠ e := by
      by_cases he : e < 0x20
      · intro hcon
        have := huniq he _ _ c1 c2 c3 c4 hcon
        rw [Prod.ext_iff] at this
        exact hd ⟨by omega, by omega⟩
      · omega
    have hc12 : cellOf s.board (x + d.1) (y + d.2) % 16 < 12 := by
      rcases hI.codes _ _ c1 c2 c3 c4 with h | h | h | h <;> omega
    have hboard : (clearCellTo s (x + d.1) (y + d.2) 0x20).board
        = gset s.board (x + d.1) (y + d.2) 0x20 := clearCellTo_board _ _ _ _
    have hreg : ∀ t' i', regGet (clearCellTo s (x + d.1) (y + d.2) 0x20) t' i' =
        if cellOf s.board (x + d.1) (y + d.2) / 16 = t' ∧
           cellOf s.board (x + d.1) (y + d.2) % 16 = i' then none
        else regGet s t' i' := by
      intro t' i'
      have : regGet (clearCellTo s (x + d.1) (y + d.2) 0x20) t' i'
          = regGet (delete_rec s (cellOf s.board (x + d.1) (y + d.2))) t' i' := rfl
      rw [this, regGet_delete_rec s _ _ _ hI.regLen hI.slotLen c5 hc12]
    refine ⟨InvE_clear _ _ 0x20 hI c1 c2 c3 c4 (Or.inl rfl) (fun _ => hcne),
      ?_, ?_, ?_⟩
    · intro he a b ha ha8 hb hb8 hcell
      rw [hboard, cellOf_gset hI.shape _ c1 c2 c3 c4 ha ha8 hb hb8] at hcell
      split at hcell
      · omega
      · exact huniq he a b ha ha8 hb hb8 hcell
    · intro t i
      rw [hreg]
      split
      · exact Or.inr rfl
      · exact Or.inl rfl
    · intro he
      rw [hreg, if_neg ?_]
      rintro ⟨hdiv, hmod⟩
      exact hcne (by omega)

theorem InvE_elim_fold (l : List (Int × Int)) (s : Board) (x y : Int) (e : Nat)
    (hI : InvE s e) (hl : ∀ d ∈ l, ¬(d.1 = 0 ∧ d.2 = 0))
    (huniq : e < 0x20 → ∀ a b : Int, 0 ≤ a → a < 8 → 0 ≤ b → b < 8 →
      cellOf s.board a b = e → (a, b) = (x, y)) :
    InvE (l.foldl (elimStep x y) s) e ∧
    (e < 0x20 → ∀ a b : Int, 0 ≤ a → a < 8 → 0 ≤ b → b < 8 →
      cellOf ((l.foldl (elimStep x y) s)).board a b = e → (a, b) = (x, y)) ∧
    (∀ t i : Nat, regGet (l.foldl (elimStep x y) s) t i = regGet s t i ∨
      regGet (l.foldl (elimStep x y) s) t i = none) ∧
    (e < 0x20 → regGet (l.foldl (elimStep x y) s) (e / 16) (e % 16)
      = regGet s (e / 16) (e % 16)) := by
  induction l generalizing s with
  | nil => exact ⟨hI, huniq, fun t i => Or.inl rfl, fun _ => rfl⟩
  | cons d t ih =>
    obtain ⟨sI, suniq, sreg, sslot⟩ := InvE_elimStep d s x y e hI
      (hl d (List.mem_cons_self d t)) huniq
    obtain ⟨fI, funiq, freg, fslot⟩ := ih (elimStep x y s d) sI
      (fun d' hd' => hl d' (List.mem_cons_of_mem _ hd')) suniq
    rw [List.foldl_cons]
    refine ⟨fI, funiq, ?_, ?_⟩
    · intro t' i'
      rcases freg t' i' with h | h
      · rcases sreg t' i' with h' | h'
        · exact Or.inl (h.trans h')
        · exact Or.inr (h.trans h')
      · exact Or.inr h
    · intro he
      rw [fslot he, sslot he]

/-- `_elim` preserves the invariant; the exempt piece's unique cell and its
registry slot are untouched. -/
theorem InvE_elim (s : Board) (x y : Int) (e : Nat)
    (hI : InvE s e)
    (huniq : e < 0x20 → ∀ a b : Int, 0 ≤ a → a < 8 → 0 ≤ b → b < 8 →
      cellOf s.board a b = e → (a, b) = (x, y)) :
    InvE (elim s x y) e ∧
    (e < 0x20 → ∀ a b : Int, 0 ≤ a → a < 8 → 0 ≤ b → b < 8 →
      cellOf (elim s x y).board a b = e → (a, b) = (x, y)) ∧
    (∀ t i : Nat, regGet (elim s x y) t i = regGet s t i ∨
      regGet (elim s x y) t i = none) ∧
    (e < 0x20 → regGet (elim s x y) (e / 16) (e % 16)
      = regGet s (e / 16) (e % 16)) := by
  refine InvE_elim_fold dirs s x y e hI ?_ huniq
  intro d hd
  simp only [dirs, List.mem_cons, List.not_mem_nil, or_false] at hd
  rcases hd with h | h | h | h <;> (subst h; simp)

theorem validPlace_parts {s : Board} {x y : Int} {t : Nat}
    (h : validPlace s x y t = true) :
    t < 2 ∧ s.count.getD t 0 < 12 ∧ 0 ≤ x ∧ x < 8 ∧ 0 ≤ y ∧ y < 8 ∧
    cellOf s.board x y = 0x20 := by
  simp only [validPlace, Bool.and_eq_true, decide_eq_true_eq] at h
  obtain ⟨⟨⟨⟨h1, h2⟩, h3⟩, h4⟩, h5⟩ := h
  split at h3 <;> rw [decide_eq_true_eq] at h3 <;>
    exact ⟨h1, h2, by omega, by omega, h4.1, h4.2, h5⟩

theorem try_move_some {s : Board} {x y dx dy a b : Int}
    (hd : (dx, dy) ∈ dirs) (h : try_move s x y dx dy = some (a, b)) :
    cellOf s.board a b = 0x20 ∧ inboard s a b = true ∧ (a, b) ≠ (x, y) ∧
    0 ≤ a ∧ a < 8 ∧ 0 ≤ b ∧ b < 8 := by
  have hd0 : ¬(dx = 0 ∧ dy = 0) := by
    simp only [dirs, List.mem_cons, List.not_mem_nil, or_false] at hd
    rcases hd with h' | h' | h' | h' <;>
      (injection h' with h1 h2; subst h1; subst h2; simp)
  simp only [try_move] at h
  split at h
  · cases h
  · rename_i h1
    split at h
    · rename_i h2
      injection h with h'
      rw [Prod.mk.injEq] at h'
      obtain ⟨ha', hb'⟩ := h'
      subst ha'
      subst hb'
      rw [Bool.or_eq_true, Bool.not_eq_true'] at h1
      push_neg at h1
      have hin : inboard s (x + dx) (y + dy) = true := by
        rcases Bool.eq_false_or_eq_true (inboard s (x + dx) (y + dy)) with ht' | hf
        · exact ht'
        · exact absurd hf h1.1
      obtain ⟨b1, b2, b3, b4⟩ := inboard_bounds hin
      refine ⟨h2, hin, ?_, b1, b2, b3, b4⟩
      intro hcon
      rw [Prod.ext_iff] at hcon
      simp only [] at hcon
      exact hd0 ⟨by omega, by omega⟩
    · split at h
      · rename_i h3
        rw [Bool.and_eq_true, decide_eq_true_eq] at h3
        injection h with h'
        rw [Prod.mk.injEq] at h'
        obtain ⟨ha', hb'⟩ := h'
        subst ha'
        subst hb'
        obtain ⟨b1, b2, b3, b4⟩ := inboard_bounds h3.1
        refine ⟨h3.2, h3.1, ?_, b1, b2, b3, b4⟩
        intro hcon
        rw [Prod.ext_iff] at hcon
        simp only [] at hcon
        exact hd0 ⟨by omega, by omega⟩
      · cases h

theorem validMove_parts {s : Board} {sx sy dx dy : Int}
    (hI : InvE s 0x20) (h : validMove s sx sy dx dy = true) :
    ∃ t i : Nat, t < 2 ∧ i < 12 ∧ regGet s t i = some (sx, sy) ∧
    cellOf s.board dx dy = 0x20 ∧ inboard s dx dy = true ∧
    (dx, dy) ≠ (sx, sy) ∧ 0 ≤ dx ∧ dx < 8 ∧ 0 ≤ dy ∧ dy < 8 := by
  rw [validMove, Bool.and_eq_true, Bool.or_eq_true] at h
  obtain ⟨horigin, hdest⟩ := h
  rw [List.any_eq_true] at hdest
  obtain ⟨d, hd, hdm⟩ := hdest
  rw [decide_eq_true_eq] at hdm
  obtain ⟨hc, hin, hne, b1, b2, b3, b4⟩ := try_move_some hd hdm
  have horigin' : ∃ t : Nat, t < 2 ∧ some (sx, sy) ∈ s.pieces.getD t [] := by
    rcases horigin with h | h
    · refine ⟨0, by omega, ?_⟩
      rw [List.contains_iff_exists_mem_beq] at h
      obtain ⟨o, ho, hb⟩ := h
      rw [beq_iff_eq] at hb
      rw [hb]
      exact ho
    · refine ⟨1, by omega, ?_⟩
      rw [List.contains_iff_exists_mem_beq] at h
      obtain ⟨o, ho, hb⟩ := h
      rw [beq_iff_eq] at hb
      rw [hb]
      exact ho
  obtain ⟨t, ht, hmem⟩ := horigin'
  have hlen : (s.pieces.getD t []).length = 12 :=
    hI.slotLen _ (getD_mem (by rw [hI.regLen]; omega) [])
  rw [List.mem_iff_getElem] at hmem
  obtain ⟨i, hi, hget⟩ := hmem
  refine ⟨t, i, ht, by omega, ?_, hc, hin, hne, b1, b2, b3, b4⟩
  rw [regGet, List.getD_eq_getElem _ _ hi, hget]

/-- Transferring the invariant across a state that changes only the `count`
list, without decreasing any entry. -/
theorem InvE_transfer_count {s s' : Board} (e : Nat) (hI : InvE s e)
    (hb : s'.board = s.board) (hp : s'.pieces = s.pieces)
    (hn : s'.num_pieces = s.num_pieces) (hcl : s'.count.length = 2)
    (hcmon : ∀ t : Nat, t < 2 → s.count.getD t 0 ≤ s'.count.getD t 0) :
    InvE s' e := by
  obtain ⟨hsh, _, hnl, hrl, hstl, hcodes, hr2g, hg2r, hfresh, hlive⟩ := hI
  have hreg : ∀ t i : Nat, regGet s' t i = regGet s t i := by
    intro t i
    rw [regGet, regGet, hp]
  refine ⟨by rw [hb]; exact hsh, hcl, by rw [hn]; exact hnl,
    by rw [hp]; exact hrl, by rw [hp]; exact hstl, ?_, ?_, ?_, ?_, ?_⟩
  · intro a b ha ha8 hb' hb8
    rw [hb]
    exact hcodes a b ha ha8 hb' hb8
  · intro t i a b ht hi hcne hr
    rw [hreg] at hr
    rw [hb]
    exact hr2g t i a b ht hi hcne hr
  · intro a b ha ha8 hb' hb8
    rw [hb, hreg]
    exact hg2r a b ha ha8 hb' hb8
  · intro t i ht hi hcnt
    rw [hreg]
    exact hfresh t i ht hi (le_trans (hcmon t ht) hcnt)
  · intro t ht
    rw [hn, hp]
    exact hlive t ht

/-- Writing a fresh piece code onto an empty cell: the invariant holds with
that code exempted, the new piece sits exactly at the written cell. -/
theorem InvE_place_write {s : Board} {e : Nat} {x y : Int}
    (hI : InvE s 0x20) (he : e < 0x20) (he12 : e % 16 < 12)
    (hx : 0 ≤ x) (hx8 : x < 8) (hy : 0 ≤ y) (hy8 : y < 8)
    (hcell : cellOf s.board x y = 0x20)
    (hslot : regGet s (e / 16) (e % 16) = none) :
    InvE { s with board := gset s.board x y e } e ∧
    cellOf (gset s.board x y e) x y = e ∧
    (∀ a b : Int, 0 ≤ a → a < 8 → 0 ≤ b → b < 8 →
      cellOf (gset s.board x y e) a b = e → (a, b) = (x, y)) := by
  obtain ⟨hsh, hcl, hnl, hrl, hstl, hcodes, hr2g, hg2r, hfresh, hlive⟩ := hI
  have hself : cellOf (gset s.board x y e) x y = e := by
    rw [cellOf_gset hsh e hx hx8 hy hy8 hx hx8 hy hy8, if_pos ⟨rfl, rfl⟩]
  have huniq : ∀ a b : Int, 0 ≤ a → a < 8 → 0 ≤ b → b < 8 →
      cellOf (gset s.board x y e) a b = e → (a, b) = (x, y) := by
    intro a b ha ha8 hb hb8 hcon
    rw [cellOf_gset hsh e hx hx8 hy hy8 ha ha8 hb hb8] at hcon
    split at hcon
    · rename_i hab
      rw [Prod.ext_iff]
      exact hab
    · exfalso
      have h2 := hg2r a b ha ha8 hb hb8 (by rw [hcon]; exact he)
        (by rw [hcon]; omega)
      rw [hcon] at h2
      rw [hslot] at h2
      cases h2
  refine ⟨⟨gridShape_gset hsh x y e, hcl, hnl, hrl, hstl, ?_, ?_, ?_,
    hfresh, hlive⟩, hself, huniq⟩
  · intro a b ha ha8 hb hb8
    show (cellOf (gset s.board x y e) a b = _) ∨ _
    rw [cellOf_gset hsh e hx hx8 hy hy8 ha ha8 hb hb8]
    split
    · right
      right
      right
      exact ⟨he, he12⟩
    · exact hcodes a b ha ha8 hb hb8
  · intro t i a b ht hi hcne hr
    obtain ⟨ha, ha8, hb, hb8, hcc⟩ := hr2g t i a b ht hi (by omega) hr
    refine ⟨ha, ha8, hb, hb8, ?_⟩
    show cellOf (gset s.board x y e) a b = _
    rw [cellOf_gset hsh e hx hx8 hy hy8 ha ha8 hb hb8, if_neg ?_, hcc]
    rintro ⟨rfl, rfl⟩
    rw [hcell] at hcc
    omega
  · intro a b ha ha8 hb hb8 hlt hne'
    revert hlt hne'
    show cellOf (gset s.board x y e) a b < 0x20 → _ → _
    rw [cellOf_gset hsh e hx hx8 hy hy8 ha ha8 hb hb8]
    split
    · rename_i hab
      intro _ hne'
      exact absurd rfl hne'
    · intro hlt hne'
      exact hg2r a b ha ha8 hb hb8 hlt (by omega)

end WYB

/-! ## Border and count preservation along `move`/`place` -/

namespace WYB

@[simp] theorem moveSwap_border (s : Board) (sx sy dx dy : Int) :
    (moveSwap s sx sy dx dy).border = s.border := rfl

@[simp] theorem moveSwap_count (s : Board) (sx sy dx dy : Int) :
    (moveSwap s sx sy dx dy).count = s.count := rfl

@[simp] theorem moveResolve_border (s1 : Board) (p : Nat) (dx dy : Int) :
    (moveResolve s1 p dx dy).border = s1.border := by
  unfold moveResolve; split <;> simp

@[simp] theorem moveResolve_count (s1 : Board) (p : Nat) (dx dy : Int) :
    (moveResolve s1 p dx dy).count = s1.count := by
  unfold moveResolve; split <;> simp

theorem moveCore_border (s : Board) (sx sy dx dy : Int) :
    (moveCore s sx sy dx dy).border = s.border := by
  simp only [moveCore]
  simp

theorem moveCore_count (s : Board) (sx sy dx dy : Int) :
    (moveCore s sx sy dx dy).count = s.count := by
  simp only [moveCore]
  simp

theorem placeElim_border (s : Board) (x y : Int) (t : Nat) :
    (placeElim s x y t).border = s.border := by
  simp only [placeElim]
  simp

@[simp] theorem placeResolve_border (s2 : Board) (piece : Nat) (x y : Int) :
    (placeResolve s2 piece x y).border = s2.border := by
  unfold placeResolve; split <;> simp

theorem place_border (s : Board) (x y : Int) (t : Nat) :
    (place s x y t).border = s.border := by
  simp only [place]
  simp

theorem place_eq_resolve (s : Board) (x y : Int) (t : Nat) :
    place s x y t
      = placeResolve (placeElim s x y t) (t * 0x10 + s.count.getD t 0) x y := rfl

end WYB

/-! ## Flank guards of `_surrounded` -/

namespace WYB

theorem inboard_parts {s : Board} {x y : Int} (h : inboard s x y = true) :
    (s.border : Int) - 1 < x ∧ x < 8 - s.border ∧
    (s.border : Int) - 1 < y ∧ y < 8 - s.border := by
  unfold inboard at h
  simp only [Bool.and_eq_true, decide_eq_true_eq] at h
  tauto

theorem inboard_false_of {s : Board} {x y : Int}
    (h : x ≤ (s.border : Int) - 1 ∨ 8 - (s.border : Int) ≤ x ∨
         y ≤ (s.border : Int) - 1 ∨ 8 - (s.border : Int) ≤ y) :
    inboard s x y = false := by
  rcases Bool.eq_false_or_eq_true (inboard s x y) with ht | hf
  · obtain ⟨a1, a2, a3, a4⟩ := inboard_parts ht
    omega
  · exact hf

theorem surrounded_false_of_flank {s : Board} {x y dx dy : Int}
    (h : inboard s (x + dx) (y + dy) = false ∨
         inboard s (x - dx) (y - dy) = false) :
    surroundedChk s x y dx dy = some false ∧ surrounded s x y dx dy = false := by
  rcases h with h | h
  · constructor
    · simp [surroundedChk, h]
    · simp [surrounded, h]
  · constructor
    · simp only [surroundedChk, h]
      split_ifs <;> simp_all
    · simp only [surrounded, h]
      split_ifs <;> simp_all

theorem surrounded_true_contains {s : Board} {x y dx dy : Int}
    (h : surrounded s x y dx dy = true) :
    (oppo.getD (cellOf s.board x y / 0x10) []).contains
      (cellOf s.board (x + dx) (y + dy) / 0x10) = true ∧
    (oppo.getD (cellOf s.board x y / 0x10) []).contains
      (cellOf s.board (x - dx) (y - dy) / 0x10) = true := by
  simp only [surrounded] at h
  split_ifs at h with h1 h2 h3
  all_goals first
    | exact absurd h Bool.false_ne_true
    | (rw [Bool.and_eq_true] at h; exact h)

end WYB

/-! ## Walls are only created by `_shrink`: geometric safety -/

namespace WYB

theorem moveResolve_board (s1 : Board) (p : Nat) (dx dy : Int) :
    (moveResolve s1 p dx dy).board =
      if surrounded s1 dx dy 1 0 || surrounded s1 dx dy 0 1 then
        gset s1.board dx dy 0x20
      else s1.board := by
  unfold moveResolve; split <;> simp

theorem moveCore_board (s : Board) (sx sy dx dy : Int) :
    (moveCore s sx sy dx dy).board =
      (moveResolve (elim (moveSwap s sx sy dx dy) dx dy)
        (cellOf (moveSwap s sx sy dx dy).board dx dy) dx dy).board := rfl

theorem placeResolve_board (s2 : Board) (piece : Nat) (x y : Int) :
    (placeResolve s2 piece x y).board =
      if surrounded s2 x y 1 0 || surrounded s2 x y 0 1 then
        gset s2.board x y 0x20
      else s2.board := by
  unfold placeResolve; split <;> simp

theorem placeElim_board (s : Board) (x y : Int) (t : Nat) :
    (placeElim s x y t).board =
      (elim { s with
          count := s.count.set t (s.count.getD t 0 + 1),
          board := gset s.board x y (t * 0x10 + s.count.getD t 0) } x y).board := rfl

theorem gridShape_placeElim {s : Board} (x y : Int) (t : Nat)
    (hg : gridShape s.board) : gridShape (placeElim s x y t).board := by
  rw [placeElim_board]
  exact gridShape_elim _ _ (gridShape_gset hg _ _ _)

theorem elim_wall_origin {s : Board} (x y a b : Int) (v : Nat)
    (hg : gridShape s.board) (ha : 0 ≤ a) (ha8 : a < 8) (hb0 : 0 ≤ b)
    (hb8 : b < 8) (hv : v ≠ 0x20)
    (h : cellOf (elim s x y).board a b = v) : cellOf s.board a b = v := by
  rcases elim_cell_or_empty s x y a b hg ha ha8 hb0 hb8 with h' | h'
  · rw [h'] at h
    exact h
  · rw [h'] at h
    exact absurd h.symm hv

theorem place_wall_origin {s : Board} {x y : Int} {t : Nat}
    (hg : gridShape s.board)
    (hx : 0 ≤ x) (hx8 : x < 8) (hy : 0 ≤ y) (hy8 : y < 8)
    (hpc : t * 0x10 + s.count.getD t 0 < 0x20)
    (a b : Int) (ha : 0 ≤ a) (ha8 : a < 8) (hb0 : 0 ≤ b) (hb8 : b < 8)
    (v : Nat) (hv : 0x30 ≤ v)
    (hcell : cellOf (place s x y t).board a b = v) : cellOf s.board a b = v := by
  have hg1 : gridShape (gset s.board x y (t * 0x10 + s.count.getD t 0)) :=
    gridShape_gset hg x y _
  have hg2 : gridShape (placeElim s x y t).board := gridShape_placeElim x y t hg
  rw [place_eq_resolve, placeResolve_board] at hcell
  have hcell2 : cellOf (placeElim s x y t).board a b = v := by
    split at hcell
    · rw [cellOf_gset hg2 _ hx hx8 hy hy8 ha ha8 hb0 hb8] at hcell
      split at hcell
      · omega
      · exact hcell
    · exact hcell
  rw [placeElim_board] at hcell2
  have hcell3 : cellOf (gset s.board x y (t * 0x10 + s.count.getD t 0)) a b
      = v := by
    refine elim_wall_origin x y a b v ?_ ha ha8 hb0 hb8 (by omega) hcell2
    exact hg1
  rw [cellOf_gset hg _ hx hx8 hy hy8 ha ha8 hb0 hb8] at hcell3
  split at hcell3
  · omega
  · exact hcell3

theorem SafeB_place {s : Board} {x y : Int} {t : Nat}
    (hg : gridShape s.board) (hS : SafeB s)
    (hx : 0 ≤ x) (hx8 : x < 8) (hy : 0 ≤ y) (hy8 : y < 8)
    (hpc : t * 0x10 + s.count.getD t 0 < 0x20) : SafeB (place s x y t) := by
  have hb : (place s x y t).border = s.border := place_border s x y t
  constructor
  · intro a b ha ha8 hb0 hb8 hc
    rw [hb]
    exact hS.1 a b ha ha8 hb0 hb8
      (place_wall_origin hg hx hx8 hy hy8 hpc a b ha ha8 hb0 hb8 0x30
        (by omega) hc)
  · intro a b ha ha8 hb0 hb8 hc
    rw [hb]
    exact hS.2 a b ha ha8 hb0 hb8
      (place_wall_origin hg hx hx8 hy hy8 hpc a b ha ha8 hb0 hb8 0x40
        (by omega) hc)

theorem moveCore_wall_origin {s : Board} {sx sy dx dy : Int}
    (hg : gridShape s.board)
    (hsx : 0 ≤ sx) (hsx8 : sx < 8) (hsy : 0 ≤ sy) (hsy8 : sy < 8)
    (hdx : 0 ≤ dx) (hdx8 : dx < 8) (hdy : 0 ≤ dy) (hdy8 : dy < 8)
    (hsrc : cellOf s.board sx sy < 0x20) (hdst : cellOf s.board dx dy = 0x20)
    (a b : Int) (ha : 0 ≤ a) (ha8 : a < 8) (hb0 : 0 ≤ b) (hb8 : b < 8)
    (v : Nat) (hv : 0x30 ≤ v)
    (hcell : cellOf (moveCore s sx sy dx dy).board a b = v) :
    cellOf s.board a b = v := by
  have hgsw : gridShape (moveSwap s sx sy dx dy).board := by
    simp only [moveSwap]
    exact gridShape_gset (gridShape_gset hg _ _ _) _ _ _
  have hswap : cellOf (moveSwap s sx sy dx dy).board a b = v →
      cellOf s.board a b = v := by
    intro h
    simp only [moveSwap] at h
    rw [cellOf_gset (gridShape_gset hg _ _ _) _ hdx hdx8 hdy hdy8
      ha ha8 hb0 hb8] at h
    split at h
    · omega
    · rw [cellOf_gset hg _ hsx hsx8 hsy hsy8 ha ha8 hb0 hb8] at h
      split at h
      · omega
      · exact h
  rw [moveCore_board, moveResolve_board] at hcell
  have hcell2 : cellOf (elim (moveSwap s sx sy dx dy) dx dy).board a b = v := by
    split at hcell
    · rw [cellOf_gset (gridShape_elim _ _ hgsw) _ hdx hdx8 hdy hdy8
        ha ha8 hb0 hb8] at hcell
      split at hcell
      · omega
      · exact hcell
    · exact hcell
  exact hswap (elim_wall_origin dx dy a b v hgsw ha ha8 hb0 hb8 (by omega) hcell2)

theorem SafeB_moveCore {s : Board} {sx sy dx dy : Int}
    (hg : gridShape s.board) (hS : SafeB s)
    (hsx : 0 ≤ sx) (hsx8 : sx < 8) (hsy : 0 ≤ sy) (hsy8 : sy < 8)
    (hdx : 0 ≤ dx) (hdx8 : dx < 8) (hdy : 0 ≤ dy) (hdy8 : dy < 8)
    (hsrc : cellOf s.board sx sy < 0x20) (hdst : cellOf s.board dx dy = 0x20) :
    SafeB (moveCore s sx sy dx dy) := by
  have hb : (moveCore s sx sy dx dy).border = s.border := moveCore_border s sx sy dx dy
  constructor
  · intro a b ha ha8 hb0 hb8 hc
    rw [hb]
    exact hS.1 a b ha ha8 hb0 hb8
      (moveCore_wall_origin hg hsx hsx8 hsy hsy8 hdx hdx8 hdy hdy8 hsrc hdst
        a b ha ha8 hb0 hb8 0x30 (by omega) hc)
  · intro a b ha ha8 hb0 hb8 hc
    rw [hb]
    exact hS.2 a b ha ha8 hb0 hb8
      (moveCore_wall_origin hg hsx hsx8 hsy hsy8 hdx hdx8 hdy hdy8 hsrc hdst
        a b ha ha8 hb0 hb8 0x40 (by omega) hc)

theorem ringCells_coord {n : Nat} {a b : Int} (hc : (a, b) ∈ ringCells n) :
    a = (n : Int) ∨ a = 7 - (n : Int) ∨ b = (n : Int) ∨ b = 7 - (n : Int) := by
  simp only [ringCells, List.mem_flatMap, List.mem_range] at hc
  obtain ⟨k, hk, hmem⟩ := hc
  simp only [List.mem_cons, List.not_mem_nil, or_false, Prod.mk.injEq] at hmem
  rcases hmem with ⟨h1, h2⟩ | ⟨h1, h2⟩ | ⟨h1, h2⟩ | ⟨h1, h2⟩ <;>
    subst h1 <;> subst h2 <;> omega

theorem cornerCells_coord {n : Nat} {a b : Int} (hc : (a, b) ∈ cornerCells n) :
    (a = (n : Int) + 1 ∨ a = 6 - (n : Int)) ∧
    (b = (n : Int) + 1 ∨ b = 6 - (n : Int)) := by
  simp only [cornerCells, List.mem_cons, List.not_mem_nil, or_false,
    Prod.mk.injEq] at hc
  rcases hc with ⟨h1, h2⟩ | ⟨h1, h2⟩ | ⟨h1, h2⟩ | ⟨h1, h2⟩ <;>
    subst h1 <;> subst h2 <;> constructor <;> omega

theorem shrink_wall_cases (s : Board) (hg : gridShape s.board)
    (hb : s.border ≤ 3) (a b : Int) (ha : 0 ≤ a) (ha8 : a < 8) (hb0 : 0 ≤ b)
    (hb8 : b < 8) :
    (cellOf (shrink s).board a b = 0x30 →
      (a, b) ∈ cornerCells s.border ∨ cellOf s.board a b = 0x30) ∧
    (cellOf (shrink s).board a b = 0x40 →
      (a, b) ∈ ringCells s.border ∨ cellOf s.board a b = 0x40) := by
  have hrb := ringCells_bounds hb
  have hcb := cornerCells_bounds (by omega : s.border ≤ 6)
  have hg1 : gridShape ((ringCells s.border).foldl
      (fun s' c => clearCellTo s' c.1 c.2 0x40) s).board :=
    gridShape_foldl_clear _ _ _ hg
  have hring := foldl_clear_cell (ringCells s.border) 0x40 s a b hg
    ha ha8 hb0 hb8 hrb
  have hshrink : (shrink s).board = ((cornerCells s.border).foldl
      (fun s' c => elim (clearCellTo s' c.1 c.2 0x30) c.1 c.2)
      ((ringCells s.border).foldl
        (fun s' c => clearCellTo s' c.1 c.2 0x40) s)).board := by
    simp only [shrink]
  constructor
  · intro h
    by_cases hmem : (a, b) ∈ cornerCells s.border
    · exact Or.inl hmem
    · right
      rw [hshrink] at h
      rcases foldl_corner_cell_notmem _ _ a b hg1 ha ha8 hb0 hb8 hcb hmem
        with h' | h'
      · rw [h', hring] at h
        split at h
        · omega
        · exact h
      · rw [h'] at h
        omega
  · intro h
    by_cases hmem : (a, b) ∈ cornerCells s.border
    · rw [hshrink,
        foldl_corner_cell_mem _ _ a b hg1 ha ha8 hb0 hb8 hcb hmem] at h
      omega
    · rw [hshrink] at h
      rcases foldl_corner_cell_notmem _ _ a b hg1 ha ha8 hb0 hb8 hcb hmem
        with h' | h'
      · rw [h', hring] at h
        split at h
        · rename_i hr
          exact Or.inl hr
        · exact Or.inr h
      · rw [h'] at h
        omega

theorem SafeB_shrink {s : Board} (hg : gridShape s.board) (hb : s.border ≤ 3)
    (hS : SafeB s) : SafeB (shrink s) := by
  have hbd : (shrink s).border = 2 * s.border + 1 := shrink_border s
  constructor
  · intro a b ha ha8 hb0 hb8 hc
    rw [hbd]
    rcases (shrink_wall_cases s hg hb a b ha ha8 hb0 hb8).1 hc with hm | ho
    · obtain ⟨h1, h2⟩ := cornerCells_coord hm
      omega
    · obtain ⟨h1, h2⟩ := hS.1 a b ha ha8 hb0 hb8 ho
      omega
  · intro a b ha ha8 hb0 hb8 hc
    rw [hbd]
    rcases (shrink_wall_cases s hg hb a b ha ha8 hb0 hb8).2 hc with hm | ho
    · have h1 := ringCells_coord hm
      omega
    · have h1 := hS.2 a b ha ha8 hb0 hb8 ho
      omega

end WYB

/-! ## Invariant transfer across the resolution branches of `place`/`move` -/

namespace WYB

/-- Clearing the unique cell of the exempt piece (the captured branch of
`move`): the slot is deleted with the cell, restoring the full invariant. -/
theorem InvE_restore_clear {s : Board} {e : Nat} {x y : Int}
    (hI : InvE s e) (he : e < 0x20) (he12 : e % 16 < 12)
    (hx : 0 ≤ x) (hx8 : x < 8) (hy : 0 ≤ y) (hy8 : y < 8)
    (hcell : cellOf s.board x y = e)
    (huniq : ∀ a b : Int, 0 ≤ a → a < 8 → 0 ≤ b → b < 8 →
      cellOf s.board a b = e → (a, b) = (x, y))
    (hsome : (regGet s (e / 16) (e % 16)).isSome = true) :
    InvE (clearCellTo s x y 0x20) 0x20 := by
  obtain ⟨hsh, hcl, hnl, hrl, hstl, hcodes, hr2g, hg2r, hfresh, hlive⟩ := hI
  have hp : cellOf s.board x y < 0x20 := by rw [hcell]; exact he
  have hboard : (clearCellTo s x y 0x20).board = gset s.board x y 0x20 :=
    clearCellTo_board s x y 0x20
  have hreg' : ∀ t' i', regGet (clearCellTo s x y 0x20) t' i' =
      if e / 16 = t' ∧ e % 16 = i' then none else regGet s t' i' := by
    intro t' i'
    have h0 : regGet (clearCellTo s x y 0x20) t' i'
        = regGet (delete_rec s (cellOf s.board x y)) t' i' := rfl
    rw [h0, regGet_delete_rec s _ _ _ hrl hstl hp (by rw [hcell]; exact he12),
      hcell]
  have hpieces : (clearCellTo s x y 0x20).pieces
      = s.pieces.set (e / 16)
        ((s.pieces.getD (e / 16) []).set (e % 16) none) := by
    show (delete_rec s (cellOf s.board x y)).pieces = _
    unfold delete_rec
    rw [if_neg (by omega)]
    show s.pieces.set (cellOf s.board x y / 0x10) _ = _
    rw [hcell]
  have hnum : (clearCellTo s x y 0x20).num_pieces
      = s.num_pieces.set (e / 16) (s.num_pieces.getD (e / 16) 0 - 1) := by
    show (delete_rec s (cellOf s.board x y)).num_pieces = _
    unfold delete_rec
    rw [if_neg (by omega)]
    show s.num_pieces.set (cellOf s.board x y / 0x10) _ = _
    rw [regSet_num_pieces, hcell]
  refine ⟨?_, ?_, ?_, ?_, ?_, ?_, ?_, ?_, ?_, ?_⟩
  · rw [hboard]
    exact gridShape_gset hsh x y 0x20
  · show (delete_rec s (cellOf s.board x y)).count.length = 2
    rw [delete_rec_count]
    exact hcl
  · rw [hnum]
    simpa using hnl
  · rw [hpieces]
    simpa using hrl
  · intro l hl
    rw [hpieces] at hl
    rcases List.mem_or_eq_of_mem_set hl with h | h
    · exact hstl l h
    · subst h
      have : (s.pieces.getD (e / 16) []).length = 12 :=
        hstl _ (getD_mem (by omega) [])
      simpa using this
  · intro a b ha ha8 hb hb8
    rw [hboard, cellOf_gset hsh _ hx hx8 hy hy8 ha ha8 hb hb8]
    split
    · exact Or.inl rfl
    · exact hcodes a b ha ha8 hb hb8
  · intro t' i' a b ht' hi' hcne hreg
    rw [hreg'] at hreg
    split at hreg
    · cases hreg
    · rename_i hslotne
      have hcne' : 16 * t' + i' ≠ e := fun hh => hslotne (by omega)
      obtain ⟨ha, ha8, hb, hb8, hcc⟩ := hr2g t' i' a b ht' hi' hcne' hreg
      refine ⟨ha, ha8, hb, hb8, ?_⟩
      rw [hboard, cellOf_gset hsh _ hx hx8 hy hy8 ha ha8 hb hb8, if_neg ?_, hcc]
      rintro ⟨rfl, rfl⟩
      rw [hcell] at hcc
      exact hcne' hcc.symm
  · intro a b ha ha8 hb hb8 hlt hne20
    rw [hboard] at hlt hne20 ⊢
    by_cases hab : a = x ∧ b = y
    · rw [cellOf_gset hsh _ hx hx8 hy hy8 ha ha8 hb hb8, if_pos hab] at hlt
      exact absurd hlt (by omega)
    · rw [cellOf_gset hsh _ hx hx8 hy hy8 ha ha8 hb hb8, if_neg hab] at hlt hne20 ⊢
      have hvne : cellOf s.board a b ≠ e := by
        intro hh
        have h2 := huniq a b ha ha8 hb hb8 hh
        rw [Prod.ext_iff] at h2
        simp only [] at h2
        exact hab h2
      have hold := hg2r a b ha ha8 hb hb8 hlt hvne
      rw [hreg', if_neg ?_]
      · exact hold
      · rintro ⟨hdiv, hmod⟩
        exact hvne (by omega)
  · intro t' i' ht' hi' hcnt'
    rw [clearCellTo_count] at hcnt'
    rw [hreg']
    split
    · rfl
    · exact hfresh t' i' ht' hi' hcnt'
  · intro t' ht'
    rw [hnum, hpieces]
    by_cases htt : e / 16 = t'
    · subst htt
      have hrow : (s.pieces.getD (e / 16) []).length = 12 :=
        hstl _ (getD_mem (by omega) [])
      rw [getD_set', if_pos ⟨rfl, by omega⟩, getD_set', if_pos ⟨rfl, by omega⟩]
      have hcount := countP_set (s.pieces.getD (e / 16) []) (e % 16) none
        (fun o => o.isSome) (by omega)
      have hgetd : (s.pieces.getD (e / 16) []).getD (e % 16) none
          = regGet s (e / 16) (e % 16) := rfl
      rw [hgetd, if_pos hsome, if_neg (by simp)] at hcount
      have hlv := hlive (e / 16) (by omega)
      omega
    · rw [getD_set', if_neg (by tauto), getD_set', if_neg (by tauto)]
      exact hlive t' ht'

/-- Emptying the unique cell of the exempt piece whose slot was never filled
(the self-capture branch of `place`): the full invariant is restored. -/
theorem InvE_unplace {s : Board} {e : Nat} {x y : Int}
    (hI : InvE s e) (he : e < 0x20)
    (hx : 0 ≤ x) (hx8 : x < 8) (hy : 0 ≤ y) (hy8 : y < 8)
    (hcell : cellOf s.board x y = e)
    (huniq : ∀ a b : Int, 0 ≤ a → a < 8 → 0 ≤ b → b < 8 →
      cellOf s.board a b = e → (a, b) = (x, y))
    (hslot : regGet s (e / 16) (e % 16) = none) :
    InvE { s with board := gset s.board x y 0x20 } 0x20 := by
  obtain ⟨hsh, hcl, hnl, hrl, hstl, hcodes, hr2g, hg2r, hfresh, hlive⟩ := hI
  refine ⟨gridShape_gset hsh x y 0x20, hcl, hnl, hrl, hstl, ?_, ?_, ?_,
    hfresh, hlive⟩
  · intro a b ha ha8 hb hb8
    show (cellOf (gset s.board x y 0x20) a b = _) ∨ _
    rw [cellOf_gset hsh _ hx hx8 hy hy8 ha ha8 hb hb8]
    split
    · exact Or.inl rfl
    · exact hcodes a b ha ha8 hb hb8
  · intro t' i' a b ht' hi' hcne hreg
    have hreg2 : regGet s t' i' = some (a, b) := hreg
    have hcne' : 16 * t' + i' ≠ e := by
      intro hh
      have h1 : e / 16 = t' ∧ e % 16 = i' := by omega
      rw [← h1.1, ← h1.2, hslot] at hreg2
      cases hreg2
    obtain ⟨ha, ha8, hb, hb8, hcc⟩ := hr2g t' i' a b ht' hi' hcne' hreg2
    refine ⟨ha, ha8, hb, hb8, ?_⟩
    show cellOf (gset s.board x y 0x20) a b = _
    rw [cellOf_gset hsh _ hx hx8 hy hy8 ha ha8 hb hb8, if_neg ?_, hcc]
    rintro ⟨rfl, rfl⟩
    rw [hcell] at hcc
    exact hcne' hcc.symm
  · intro a b ha ha8 hb hb8 hlt hne
    revert hlt hne
    show cellOf (gset s.board x y 0x20) a b < 0x20 →
      cellOf (gset s.board x y 0x20) a b ≠ 0x20 →
      regGet s (cellOf (gset s.board x y 0x20) a b / 16)
        (cellOf (gset s.board x y 0x20) a b % 16) = some (a, b)
    rw [cellOf_gset hsh _ hx hx8 hy hy8 ha ha8 hb hb8]
    split
    · intro hlt _
      exact absurd hlt (by omega)
    · rename_i hab
      intro hlt _
      have hvne : cellOf s.board a b ≠ e := by
        intro hh
        have h2 := huniq a b ha ha8 hb hb8 hh
        rw [Prod.ext_iff] at h2
        simp only [] at h2
        exact hab h2
      exact hg2r a b ha ha8 hb hb8 hlt hvne

/-- Registering the freshly placed piece (the normal branch of `place`). -/
theorem InvE_add_rec {s : Board} {e : Nat} {x y : Int}
    (hI : InvE s e) (he : e < 0x20) (he12 : e % 16 < 12)
    (hx : 0 ≤ x) (hx8 : x < 8) (hy : 0 ≤ y) (hy8 : y < 8)
    (hcell : cellOf s.board x y = e)
    (huniq : ∀ a b : Int, 0 ≤ a → a < 8 → 0 ≤ b → b < 8 →
      cellOf s.board a b = e → (a, b) = (x, y))
    (hslot : regGet s (e / 16) (e % 16) = none)
    (hcnt : e % 16 < s.count.getD (e / 16) 0) :
    InvE (add_rec s e (x, y)) 0x20 := by
  obtain ⟨hsh, hcl, hnl, hrl, hstl, hcodes, hr2g, hg2r, hfresh, hlive⟩ := hI
  have het : e / 16 < 2 := by omega
  have hreg' : ∀ t' i', regGet (add_rec s e (x, y)) t' i' =
      if e / 16 = t' ∧ e % 16 = i' then some (x, y) else regGet s t' i' := by
    intro t' i'
    have h0 : regGet (add_rec s e (x, y)) t' i'
        = regGet (regSet s (e / 0x10) (e % 0x10) (some (x, y))) t' i' := rfl
    rw [h0, regGet_regSet s _ _ _ _ _ hrl hstl het he12]
  have hpieces : (add_rec s e (x, y)).pieces
      = s.pieces.set (e / 16)
        ((s.pieces.getD (e / 16) []).set (e % 16) (some (x, y))) := rfl
  have hnum : (add_rec s e (x, y)).num_pieces
      = s.num_pieces.set (e / 16) (s.num_pieces.getD (e / 16) 0 + 1) := rfl
  have hboard : (add_rec s e (x, y)).board = s.board := add_rec_board s e (x, y)
  refine ⟨?_, ?_, ?_, ?_, ?_, ?_, ?_, ?_, ?_, ?_⟩
  · rw [hboard]
    exact hsh
  · rw [add_rec_count]
    exact hcl
  · rw [hnum]
    simpa using hnl
  · rw [hpieces]
    simpa using hrl
  · intro l hl
    rw [hpieces] at hl
    rcases List.mem_or_eq_of_mem_set hl with h | h
    · exact hstl l h
    · subst h
      have : (s.pieces.getD (e / 16) []).length = 12 :=
        hstl _ (getD_mem (by omega) [])
      simpa using this
  · intro a b ha ha8 hb hb8
    rw [hboard]
    exact hcodes a b ha ha8 hb hb8
  · intro t' i' a b ht' hi' hcne hreg
    rw [hreg'] at hreg
    split at hreg
    · rename_i hei
      injection hreg with hreg2
      rw [Prod.mk.injEq] at hreg2
      obtain ⟨h1, h2⟩ := hreg2
      subst h1
      subst h2
      refine ⟨hx, hx8, hy, hy8, ?_⟩
      rw [hboard, hcell]
      omega
    · rename_i hei
      have hcne2 : 16 * t' + i' ≠ e := fun hh => hei (by omega)
      obtain ⟨ha, ha8, hb, hb8, hcc⟩ := hr2g t' i' a b ht' hi' hcne2 hreg
      refine ⟨ha, ha8, hb, hb8, ?_⟩
      rw [hboard]
      exact hcc
  · intro a b ha ha8 hb hb8 hlt hne
    rw [hboard] at hlt hne ⊢
    by_cases hv : cellOf s.board a b = e
    · have hab := huniq a b ha ha8 hb hb8 hv
      rw [Prod.ext_iff] at hab
      simp only [] at hab
      rw [hv, hreg', if_pos ⟨rfl, rfl⟩, hab.1, hab.2]
    · have hold := hg2r a b ha ha8 hb hb8 hlt hv
      rw [hreg', if_neg ?_]
      · exact hold
      · rintro ⟨hdiv, hmod⟩
        exact hv (by omega)
  · intro t' i' ht' hi' hcnt'
    rw [add_rec_count] at hcnt'
    rw [hreg']
    split
    · rename_i hei
      obtain ⟨h1, h2⟩ := hei
      subst h1
      subst h2
      exact absurd hcnt' (by omega)
    · exact hfresh t' i' ht' hi' hcnt'
  · intro t' ht'
    rw [hnum, hpieces]
    by_cases htt : e / 16 = t'
    · subst htt
      have hrow : (s.pieces.getD (e / 16) []).length = 12 :=
        hstl _ (getD_mem (by omega) [])
      rw [getD_set', if_pos ⟨rfl, by omega⟩, getD_set', if_pos ⟨rfl, by omega⟩]
      have hcount := countP_set (s.pieces.getD (e / 16) []) (e % 16)
        (some (x, y)) (fun o => o.isSome) (by omega)
      have hgetd : (s.pieces.getD (e / 16) []).getD (e % 16) (some (x, y))
          = regGet s (e / 16) (e % 16) := getD_eq_getD (by omega) _ _
      rw [hgetd, hslot, if_neg (by simp), if_pos (by simp)] at hcount
      have hlv := hlive (e / 16) (by omega)
      omega
    · rw [getD_set', if_neg (by tauto), getD_set', if_neg (by tauto)]
      exact hlive t' ht'

/-- Re-registering the moved piece at its destination (the normal branch of
`move`). -/
theorem InvE_reregister {s : Board} {e : Nat} {dx dy : Int}
    (hI : InvE s e) (he : e < 0x20) (he12 : e % 16 < 12)
    (hdx : 0 ≤ dx) (hdx8 : dx < 8) (hdy : 0 ≤ dy) (hdy8 : dy < 8)
    (hcell : cellOf s.board dx dy = e)
    (huniq : ∀ a b : Int, 0 ≤ a → a < 8 → 0 ≤ b → b < 8 →
      cellOf s.board a b = e → (a, b) = (dx, dy))
    (hsome : (regGet s (e / 16) (e % 16)).isSome = true) :
    InvE (regSet s (e / 0x10) (e % 0x10) (some (dx, dy))) 0x20 := by
  obtain ⟨hsh, hcl, hnl, hrl, hstl, hcodes, hr2g, hg2r, hfresh, hlive⟩ := hI
  have het : e / 16 < 2 := by omega
  have hcnt : e % 16 < s.count.getD (e / 16) 0 := by
    by_contra hcon
    push_neg at hcon
    rw [hfresh (e / 16) (e % 16) het he12 hcon] at hsome
    simp at hsome
  have hreg' : ∀ t' i', regGet (regSet s (e / 0x10) (e % 0x10) (some (dx, dy))) t' i' =
      if e / 16 = t' ∧ e % 16 = i' then some (dx, dy) else regGet s t' i' :=
    fun t' i' => regGet_regSet s _ _ _ _ _ hrl hstl het he12
  have hpieces : (regSet s (e / 0x10) (e % 0x10) (some (dx, dy))).pieces
      = s.pieces.set (e / 16)
        ((s.pieces.getD (e / 16) []).set (e % 16) (some (dx, dy))) := rfl
  refine ⟨hsh, hcl, hnl, ?_, ?_, hcodes, ?_, ?_, ?_, ?_⟩
  · rw [hpieces]
    simpa using hrl
  · intro l hl
    rw [hpieces] at hl
    rcases List.mem_or_eq_of_mem_set hl with h | h
    · exact hstl l h
    · subst h
      have : (s.pieces.getD (e / 16) []).length = 12 :=
        hstl _ (getD_mem (by omega) [])
      simpa using this
  · intro t' i' a b ht' hi' hcne hreg
    rw [hreg'] at hreg
    split at hreg
    · rename_i hei
      injection hreg with hreg2
      rw [Prod.mk.injEq] at hreg2
      obtain ⟨h1, h2⟩ := hreg2
      subst h1
      subst h2
      refine ⟨hdx, hdx8, hdy, hdy8, ?_⟩
      rw [regSet_board, hcell]
      omega
    · rename_i hei
      have hcne2 : 16 * t' + i' ≠ e := fun hh => hei (by omega)
      obtain ⟨ha, ha8, hb, hb8, hcc⟩ := hr2g t' i' a b ht' hi' hcne2 hreg
      refine ⟨ha, ha8, hb, hb8, ?_⟩
      rw [regSet_board]
      exact hcc
  · intro a b ha ha8 hb hb8 hlt hne
    rw [regSet_board] at hlt hne ⊢
    by_cases hv : cellOf s.board a b = e
    · have hab := huniq a b ha ha8 hb hb8 hv
      rw [Prod.ext_iff] at hab
      simp only [] at hab
      rw [hv, hreg', if_pos ⟨rfl, rfl⟩, hab.1, hab.2]
    · have hold := hg2r a b ha ha8 hb hb8 hlt hv
      rw [hreg', if_neg ?_]
      · exact hold
      · rintro ⟨hdiv, hmod⟩
        exact hv (by omega)
  · intro t' i' ht' hi' hcnt'
    rw [regSet_count] at hcnt'
    rw [hreg']
    split
    · rename_i hei
      obtain ⟨h1, h2⟩ := hei
      subst h1
      subst h2
      exact absurd hcnt' (by omega)
    · exact hfresh t' i' ht' hi' hcnt'
  · intro t' ht'
    rw [regSet_num_pieces, hpieces]
    by_cases htt : e / 16 = t'
    · subst htt
      have hrow : (s.pieces.getD (e / 16) []).length = 12 :=
        hstl _ (getD_mem (by omega) [])
      rw [getD_set', if_pos ⟨rfl, by omega⟩]
      have hcount := countP_set (s.pieces.getD (e / 16) []) (e % 16)
        (some (dx, dy)) (fun o => o.isSome) (by omega)
      have hgetd : (s.pieces.getD (e / 16) []).getD (e % 16) (some (dx, dy))
          = regGet s (e / 16) (e % 16) := getD_eq_getD (by omega) _ _
      rw [hgetd, if_pos hsome, if_pos (by simp)] at hcount
      have hlv := hlive (e / 16) (by omega)
      omega
    · rw [getD_set', if_neg (by tauto)]
      exact hlive t' ht'

/-- The simultaneous swap at the start of `move`: with the moved piece's code
exempted, the invariant survives, the piece now sits exactly at the
destination. -/
theorem InvE_move_swap {s : Board} {sx sy dx dy : Int} {t i : Nat}
    (hI : InvE s 0x20) (ht : t < 2) (hi : i < 12)
    (hslot : regGet s t i = some (sx, sy))
    (hsrc : cellOf s.board sx sy = 16 * t + i)
    (hdst : cellOf s.board dx dy = 0x20)
    (hsx : 0 ≤ sx) (hsx8 : sx < 8) (hsy : 0 ≤ sy) (hsy8 : sy < 8)
    (hdx : 0 ≤ dx) (hdx8 : dx < 8) (hdy : 0 ≤ dy) (hdy8 : dy < 8)
    (hne : ¬(dx = sx ∧ dy = sy)) :
    InvE (moveSwap s sx sy dx dy) (16 * t + i) ∧
    cellOf (moveSwap s sx sy dx dy).board dx dy = 16 * t + i ∧
    (∀ a b : Int, 0 ≤ a → a < 8 → 0 ≤ b → b < 8 →
      cellOf (moveSwap s sx sy dx dy).board a b = 16 * t + i →
      (a, b) = (dx, dy)) := by
  obtain ⟨hsh, hcl, hnl, hrl, hstl, hcodes, hr2g, hg2r, hfresh, hlive⟩ := hI
  have hsh1 : gridShape (gset s.board sx sy (cellOf s.board dx dy)) :=
    gridShape_gset hsh _ _ _
  have hboard : (moveSwap s sx sy dx dy).board
      = gset (gset s.board sx sy (cellOf s.board dx dy)) dx dy
          (cellOf s.board sx sy) := rfl
  have hcellM : ∀ a b : Int, 0 ≤ a → a < 8 → 0 ≤ b → b < 8 →
      cellOf (moveSwap s sx sy dx dy).board a b =
        if a = dx ∧ b = dy then 16 * t + i
        else if a = sx ∧ b = sy then 0x20
        else cellOf s.board a b := by
    intro a b ha ha8 hb hb8
    rw [hboard, cellOf_gset hsh1 _ hdx hdx8 hdy hdy8 ha ha8 hb hb8]
    by_cases hab : a = dx ∧ b = dy
    · rw [if_pos hab, if_pos hab, hsrc]
    · rw [if_neg hab, if_neg hab,
        cellOf_gset hsh _ hsx hsx8 hsy hsy8 ha ha8 hb hb8, hdst]
  have hself : cellOf (moveSwap s sx sy dx dy).board dx dy = 16 * t + i := by
    rw [hcellM dx dy hdx hdx8 hdy hdy8, if_pos ⟨rfl, rfl⟩]
  have huniq : ∀ a b : Int, 0 ≤ a → a < 8 → 0 ≤ b → b < 8 →
      cellOf (moveSwap s sx sy dx dy).board a b = 16 * t + i →
      (a, b) = (dx, dy) := by
    intro a b ha ha8 hb hb8 hcon
    rw [hcellM a b ha ha8 hb hb8] at hcon
    split at hcon
    · rename_i hab
      obtain ⟨rfl, rfl⟩ := hab
      rfl
    · rename_i hab1
      split at hcon
      · exact absurd hcon.symm (by omega)
      · rename_i hab2
        exfalso
        have hgr := hg2r a b ha ha8 hb hb8 (by rw [hcon]; omega)
          (by rw [hcon]; omega)
        rw [hcon] at hgr
        have hd1 : (16 * t + i) / 16 = t := by omega
        have hd2 : (16 * t + i) % 16 = i := by omega
        rw [hd1, hd2, hslot] at hgr
        injection hgr with hgr2
        rw [Prod.mk.injEq] at hgr2
        exact hab2 ⟨hgr2.1.symm, hgr2.2.symm⟩
  refine ⟨⟨?_, hcl, hnl, hrl, hstl, ?_, ?_, ?_, hfresh, hlive⟩, hself, huniq⟩
  · rw [hboard]
    exact gridShape_gset hsh1 _ _ _
  · intro a b ha ha8 hb hb8
    rw [hcellM a b ha ha8 hb hb8]
    split
    · right
      right
      right
      exact ⟨by omega, by omega⟩
    · split
      · exact Or.inl rfl
      · exact hcodes a b ha ha8 hb hb8
  · intro t' i' a b ht' hi' hcne hreg
    have hreg2 : regGet s t' i' = some (a, b) := hreg
    obtain ⟨ha, ha8, hb, hb8, hcc⟩ := hr2g t' i' a b ht' hi' (by omega) hreg2
    refine ⟨ha, ha8, hb, hb8, ?_⟩
    have hnd : ¬(a = dx ∧ b = dy) := by
      rintro ⟨rfl, rfl⟩
      rw [hdst] at hcc
      omega
    have hns : ¬(a = sx ∧ b = sy) := by
      rintro ⟨rfl, rfl⟩
      rw [hsrc] at hcc
      exact hcne hcc.symm
    rw [hcellM a b ha ha8 hb hb8, if_neg hnd, if_neg hns]
    exact hcc
  · intro a b ha ha8 hb hb8 hlt hcne
    have hv := hcellM a b ha ha8 hb hb8
    rw [hv] at hlt hcne ⊢
    by_cases h1 : a = dx ∧ b = dy
    · rw [if_pos h1] at hcne
      exact absurd rfl hcne
    · rw [if_neg h1] at hlt hcne ⊢
      by_cases h2 : a = sx ∧ b = sy
      · rw [if_pos h2] at hlt
        exact absurd hlt (by omega)
      · rw [if_neg h2] at hlt hcne ⊢
        exact hg2r a b ha ha8 hb hb8 hlt (by omega)

/-- Bumping the turn counter does not touch any invariant field. -/
theorem InvE_turns {s : Board} {n : Nat} (hI : InvE s 0x20) :
    InvE { s with turns := n } 0x20 :=
  ⟨hI.shape, hI.countLen, hI.npLen, hI.regLen, hI.slotLen, hI.codes,
   hI.reg2grid, hI.grid2reg, hI.fresh, hI.live⟩

theorem InvE_clear_fold (l : List (Int × Int)) (v : Nat) (s : Board)
    (hl : ∀ c ∈ l, 0 ≤ c.1 ∧ c.1 < 8 ∧ 0 ≤ c.2 ∧ c.2 < 8)
    (hv : v = 0x20 ∨ v = 0x30 ∨ v = 0x40) (hI : InvE s 0x20) :
    InvE (l.foldl (fun s' c => clearCellTo s' c.1 c.2 v) s) 0x20 := by
  induction l generalizing s with
  | nil => exact hI
  | cons c r ih =>
    obtain ⟨c1, c2, c3, c4⟩ := hl c (List.mem_cons_self c r)
    exact ih _ (fun d hd => hl d (List.mem_cons_of_mem _ hd))
      (InvE_clear c.1 c.2 v hI c1 c2 c3 c4 hv (fun h => by omega))

theorem InvE_corner_fold (l : List (Int × Int)) (s : Board)
    (hl : ∀ c ∈ l, 0 ≤ c.1 ∧ c.1 < 8 ∧ 0 ≤ c.2 ∧ c.2 < 8)
    (hI : InvE s 0x20) :
    InvE (l.foldl
      (fun s' c => elim (clearCellTo s' c.1 c.2 0x30) c.1 c.2) s) 0x20 := by
  induction l generalizing s with
  | nil => exact hI
  | cons c r ih =>
    obtain ⟨c1, c2, c3, c4⟩ := hl c (List.mem_cons_self c r)
    refine ih _ (fun d hd => hl d (List.mem_cons_of_mem _ hd)) ?_
    exact (InvE_elim _ c.1 c.2 0x20
      (InvE_clear c.1 c.2 0x30 hI c1 c2 c3 c4 (by tauto) (fun h => by omega))
      (fun h => absurd h (by omega))).1

theorem InvE_shrink {s : Board} (hI : InvE s 0x20) (hb : s.border ≤ 3) :
    InvE (shrink s) 0x20 := by
  have h1 := InvE_clear_fold (ringCells s.border) 0x40 s
    (ringCells_bounds hb) (by tauto) hI
  have h2 := InvE_corner_fold (cornerCells s.border) _
    (cornerCells_bounds (by omega)) h1
  simp only [shrink]
  exact ⟨h2.shape, h2.countLen, h2.npLen, h2.regLen, h2.slotLen, h2.codes,
    h2.reg2grid, h2.grid2reg, h2.fresh, h2.live⟩

end WYB

/-! ## The invariant holds in every reachable state -/

namespace WYB

/-- The tail of `place` (from `_elim` on) preserves the full invariant. -/
theorem InvE_placeResolve {s1 : Board} {e : Nat} {x y : Int}
    (hI1 : InvE s1 e) (he : e < 0x20) (he12 : e % 16 < 12)
    (hx : 0 ≤ x) (hx8 : x < 8) (hy : 0 ≤ y) (hy8 : y < 8)
    (hself : cellOf s1.board x y = e)
    (huniq : ∀ a b : Int, 0 ≤ a → a < 8 → 0 ≤ b → b < 8 →
      cellOf s1.board a b = e → (a, b) = (x, y))
    (hslot : regGet s1 (e / 16) (e % 16) = none)
    (hcnt : e % 16 < s1.count.getD (e / 16) 0) :
    InvE (placeResolve (elim s1 x y) e x y) 0x20 := by
  obtain ⟨hI2, huniq2, hregs2, hslot2⟩ :=
    InvE_elim s1 x y e hI1 (fun _ => huniq)
  have hslot2' : regGet (elim s1 x y) (e / 16) (e % 16) = none := by
    rw [hslot2 he]
    exact hslot
  have hcenter : cellOf (elim s1 x y).board x y = e := by
    rw [elim_center s1 x y hI1.shape hx hx8 hy hy8]
    exact hself
  have hcnt2 : e % 16 < (elim s1 x y).count.getD (e / 16) 0 := by
    rw [elim_count]
    exact hcnt
  unfold placeResolve
  split
  · exact InvE_unplace hI2 he hx hx8 hy hy8 hcenter (huniq2 he) hslot2'
  · exact InvE_add_rec hI2 he he12 hx hx8 hy hy8 hcenter (huniq2 he)
      hslot2' hcnt2

theorem Inv_place {s : Board} {x y : Int} {t : Nat}
    (hInv : Inv s) (hv : validPlace s x y t = true) : Inv (place s x y t) := by
  obtain ⟨hI, hS⟩ := hInv
  obtain ⟨ht2, hcnt, hx, hx8, hy, hy8, hempty⟩ := validPlace_parts hv
  have hpc : t * 0x10 + s.count.getD t 0 < 0x20 := by omega
  refine ⟨?_, SafeB_place hI.shape hS hx hx8 hy hy8 hpc⟩
  show InvE (place s x y t) 0x20
  rw [place_eq_resolve]
  have hI0 : InvE { s with count := s.count.set t (s.count.getD t 0 + 1) } 0x20 := by
    refine InvE_transfer_count 0x20 hI rfl rfl rfl ?_ ?_
    · rw [List.length_set]
      exact hI.countLen
    · intro t' ht'
      rw [getD_set']
      split
      · rename_i hc
        rw [← hc.1]
        omega
      · exact le_refl _
  have he12 : (t * 0x10 + s.count.getD t 0) % 16 < 12 := by omega
  have hslot0 : regGet { s with count := s.count.set t (s.count.getD t 0 + 1) }
      ((t * 0x10 + s.count.getD t 0) / 16)
      ((t * 0x10 + s.count.getD t 0) % 16) = none := by
    have h1 : (t * 0x10 + s.count.getD t 0) / 16 = t := by omega
    have h2 : (t * 0x10 + s.count.getD t 0) % 16 = s.count.getD t 0 := by omega
    rw [h1, h2]
    exact hI.fresh t (s.count.getD t 0) ht2 hcnt (le_refl _)
  obtain ⟨hI1, hself, huniq1⟩ := InvE_place_write hI0 hpc he12 hx hx8 hy hy8
    hempty hslot0
  have hcnt1 : (t * 0x10 + s.count.getD t 0) % 16 <
      (s.count.set t (s.count.getD t 0 + 1)).getD
        ((t * 0x10 + s.count.getD t 0) / 16) 0 := by
    have h1 : (t * 0x10 + s.count.getD t 0) / 16 = t := by omega
    have h2 : (t * 0x10 + s.count.getD t 0) % 16 = s.count.getD t 0 := by omega
    rw [h1, h2, getD_set', if_pos ⟨rfl, by rw [hI.countLen]; omega⟩]
    omega
  exact InvE_placeResolve hI1 hpc he12 hx hx8 hy hy8 hself huniq1 hslot0 hcnt1

theorem Inv_move {s : Board} {sx sy dx dy : Int}
    (hInv : Inv s) (hv : validMove s sx sy dx dy = true) :
    Inv (move s sx sy dx dy) := by
  obtain ⟨hI, hS⟩ := hInv
  obtain ⟨t, i, ht, hi, hslot, hdst, hin, hne, hdx, hdx8, hdy, hdy8⟩ :=
    validMove_parts hI hv
  obtain ⟨hsx, hsx8, hsy, hsy8, hsrc⟩ :=
    hI.reg2grid t i sx sy ht hi (by omega) hslot
  have hne' : ¬(dx = sx ∧ dy = sy) := by
    intro hc
    exact hne (by rw [Prod.mk.injEq]; exact hc)
  have hb3 : s.border ≤ 3 := by
    obtain ⟨b1, b2, b3, b4⟩ := inboard_parts hin
    omega
  obtain ⟨hIsw, hselfsw, huniqsw⟩ := InvE_move_swap hI ht hi hslot hsrc hdst
    hsx hsx8 hsy hsy8 hdx hdx8 hdy hdy8 hne'
  obtain ⟨hI2, huniq2, hregs2, hslot2⟩ :=
    InvE_elim _ dx dy _ hIsw (fun _ => huniqsw)
  have hcenter : cellOf (elim (moveSwap s sx sy dx dy) dx dy).board dx dy
      = 16 * t + i := by
    rw [elim_center _ dx dy hIsw.shape hdx hdx8 hdy hdy8]
    exact hselfsw
  have hslotE : regGet (elim (moveSwap s sx sy dx dy) dx dy)
      ((16 * t + i) / 16) ((16 * t + i) % 16) = some (sx, sy) := by
    rw [hslot2 (by omega)]
    have hd1 : (16 * t + i) / 16 = t := by omega
    have hd2 : (16 * t + i) % 16 = i := by omega
    rw [hd1, hd2]
    exact hslot
  have hsomeE : (regGet (elim (moveSwap s sx sy dx dy) dx dy)
      ((16 * t + i) / 16) ((16 * t + i) % 16)).isSome = true := by
    rw [hslotE]
    rfl
  have hRes : InvE (moveResolve (elim (moveSwap s sx sy dx dy) dx dy)
      (cellOf (moveSwap s sx sy dx dy).board dx dy) dx dy) 0x20 := by
    rw [show cellOf (moveSwap s sx sy dx dy).board dx dy = 16 * t + i
      from hselfsw]
    unfold moveResolve
    split
    · have heq : delete_rec { elim (moveSwap s sx sy dx dy) dx dy with
          board := gset (elim (moveSwap s sx sy dx dy) dx dy).board dx dy 0x20 }
          (16 * t + i)
          = clearCellTo (elim (moveSwap s sx sy dx dy) dx dy) dx dy 0x20 := by
        unfold clearCellTo
        rw [hcenter]
        unfold delete_rec
        split <;> rfl
      rw [heq]
      exact InvE_restore_clear hI2 (by omega) (by omega) hdx hdx8 hdy hdy8
        hcenter (huniq2 (by omega)) hsomeE
    · exact InvE_reregister hI2 (by omega) (by omega) hdx hdx8 hdy hdy8
        hcenter (huniq2 (by omega)) hsomeE
  have hCore : InvE (moveCore s sx sy dx dy) 0x20 := InvE_turns hRes
  have hSafeCore : SafeB (moveCore s sx sy dx dy) :=
    SafeB_moveCore hI.shape hS hsx hsx8 hsy hsy8 hdx hdx8 hdy hdy8
      (by rw [hsrc]; omega) hdst
  simp only [move]
  split
  · refine ⟨InvE_shrink hCore ?_, SafeB_shrink hCore.shape ?_ hSafeCore⟩
    · rw [moveCore_border]
      exact hb3
    · rw [moveCore_border]
      exact hb3
  · exact ⟨hCore, hSafeCore⟩

theorem Inv_init : Inv initBoard := by
  constructor
  · refine ⟨gridShape_init, by decide, by decide, by decide, by decide,
      ?_, ?_, ?_, ?_, ?_⟩
    · intro a b ha ha8 hb hb8
      interval_cases a <;> interval_cases b <;> decide
    · intro t' i' a b ht' hi' hcne hreg
      have hnone : regGet initBoard t' i' = none := by
        interval_cases t' <;> interval_cases i' <;> decide
      rw [hnone] at hreg
      cases hreg
    · intro a b ha ha8 hb hb8 hlt hne
      exfalso
      interval_cases a <;> interval_cases b <;> (revert hlt; decide)
    · intro t' i' ht' hi' hcnt'
      interval_cases t' <;> interval_cases i' <;> decide
    · intro t' ht'
      interval_cases t' <;> decide
  · constructor
    · intro a b ha ha8 hb hb8 hc
      revert hc
      interval_cases a <;> interval_cases b <;> decide
    · intro a b ha ha8 hb hb8 hc
      revert hc
      interval_cases a <;> interval_cases b <;> decide

/-- Every state reachable by valid placements and moves satisfies the full
grid/registry invariant and the wall-geometry invariant. -/
theorem reachable_inv {s : Board} (hs : ReachableV s) : Inv s := by
  induction hs with
  | init => exact Inv_init
  | place hr hv ih => exact Inv_place ih hv
  | move hr hv ih => exact Inv_move ih hv

end WYB

/-! ## `_elim` at an own-side center never captures own pieces -/

namespace WYB

theorem inboard_congr {s s' : Board} (h : s'.border = s.border) (x y : Int) :
    inboard s' x y = inboard s x y := by
  unfold inboard
  rw [h]

theorem surrounded_true_of {s : Board} {x y dx dy : Int}
    (h1 : inboard s (x + dx) (y + dy) = true)
    (h2 : inboard s (x - dx) (y - dy) = true)
    (hp : cellOf s.board x y ≠ 0x20)
    (hc1 : (oppo.getD (cellOf s.board x y / 0x10) []).contains
      (cellOf s.board (x + dx) (y + dy) / 0x10) = true)
    (hc2 : (oppo.getD (cellOf s.board x y / 0x10) []).contains
      (cellOf s.board (x - dx) (y - dy) / 0x10) = true) :
    surrounded s x y dx dy = true := by
  simp only [surrounded]
  rw [h1, h2]
  rw [if_neg (by simp), if_neg (by simp), if_neg hp, Bool.and_eq_true]
  exact ⟨hc1, hc2⟩

theorem elimStep_own_side (x y : Int) (d : Int × Int) (s : Board) (t : Nat)
    (ht : t < 2) (hd : ¬(d.1 = 0 ∧ d.2 = 0)) (hg : gridShape s.board)
    (hx : 0 ≤ x) (hx8 : x < 8) (hy : 0 ≤ y) (hy8 : y < 8)
    (hcp : cellOf s.board x y < 0x20) (hside : cellOf s.board x y / 16 = t) :
    (elimStep x y s d).pieces.getD t [] = s.pieces.getD t [] ∧
    (elimStep x y s d).num_pieces.getD t 0 = s.num_pieces.getD t 0 := by
  simp only [elimStep]
  split
  case isFalse => exact ⟨rfl, rfl⟩
  case isTrue hs =>
    obtain ⟨c1, c2, c3, c4, c5⟩ := surrounded_true_center_range hs
    have hx2 : x + d.1 - d.1 = x := by ring
    have hy2 : y + d.2 - d.2 = y := by ring
    have hcont := (surrounded_true_contains hs).2
    rw [hx2, hy2, hside] at hcont
    have hqt : cellOf s.board (x + d.1) (y + d.2) / 16 ≠ t := by
      intro hqq
      rw [hqq] at hcont
      interval_cases t <;> exact absurd hcont (by decide)
    constructor
    · show (delete_rec s (cellOf s.board (x + d.1) (y + d.2))).pieces.getD t []
        = _
      unfold delete_rec
      rw [if_neg (by omega)]
      show (s.pieces.set (cellOf s.board (x + d.1) (y + d.2) / 0x10) _).getD t []
        = _
      rw [getD_set', if_neg (by tauto)]
    · show (delete_rec s
          (cellOf s.board (x + d.1) (y + d.2))).num_pieces.getD t 0 = _
      unfold delete_rec
      rw [if_neg (by omega)]
      show ((regSet s _ _ none).num_pieces.set
        (cellOf s.board (x + d.1) (y + d.2) / 0x10) _).getD t 0 = _
      rw [regSet_num_pieces, getD_set', if_neg (by tauto)]

theorem elim_fold_own_side (l : List (Int × Int)) (s : Board) (x y : Int)
    (t : Nat) (ht : t < 2) (hl : ∀ d ∈ l, ¬(d.1 = 0 ∧ d.2 = 0))
    (hg : gridShape s.board)
    (hx : 0 ≤ x) (hx8 : x < 8) (hy : 0 ≤ y) (hy8 : y < 8)
    (hcp : cellOf s.board x y < 0x20) (hside : cellOf s.board x y / 16 = t) :
    (l.foldl (elimStep x y) s).pieces.getD t [] = s.pieces.getD t [] ∧
    (l.foldl (elimStep x y) s).num_pieces.getD t 0 = s.num_pieces.getD t 0 := by
  induction l generalizing s with
  | nil => exact ⟨rfl, rfl⟩
  | cons d r ih =>
    have hd := hl d (List.mem_cons_self d r)
    have hstep := elimStep_own_side x y d s t ht hd hg hx hx8 hy hy8 hcp hside
    have hcenter : cellOf (elimStep x y s d).board x y = cellOf s.board x y := by
      rcases elimStep_cell d hg hx hx8 hy hy8 with h' | h'
      · exact h'
      · exfalso
        have h2 := h'.2.2
        rw [Prod.mk.injEq] at h2
        exact hd ⟨by omega, by omega⟩
    have hrec := ih (elimStep x y s d)
      (fun d' hd' => hl d' (List.mem_cons_of_mem _ hd'))
      (gridShape_elimStep x y d hg)
      (by rw [hcenter]; exact hcp) (by rw [hcenter]; exact hside)
    rw [List.foldl_cons]
    exact ⟨hrec.1.trans hstep.1, hrec.2.trans hstep.2⟩

theorem placeElim_count (s : Board) (x y : Int) (t : Nat) :
    (placeElim s x y t).count = s.count.set t (s.count.getD t 0 + 1) := by
  simp only [placeElim]
  rw [elim_count]

theorem placeElim_own_side {s : Board} {x y : Int} {t : Nat}
    (hg : gridShape s.board) (hv : validPlace s x y t = true) :
    (placeElim s x y t).pieces.getD t [] = s.pieces.getD t [] ∧
    (placeElim s x y t).num_pieces.getD t 0 = s.num_pieces.getD t 0 ∧
    cellOf (placeElim s x y t).board x y = t * 0x10 + s.count.getD t 0 := by
  obtain ⟨ht2, hcnt, hx, hx8, hy, hy8, hempty⟩ := validPlace_parts hv
  have hg1 : gridShape (gset s.board x y (t * 0x10 + s.count.getD t 0)) :=
    gridShape_gset hg x y _
  have hc1 : cellOf (gset s.board x y (t * 0x10 + s.count.getD t 0)) x y
      = t * 0x10 + s.count.getD t 0 := by
    rw [cellOf_gset hg _ hx hx8 hy hy8 hx hx8 hy hy8, if_pos ⟨rfl, rfl⟩]
  have hl : ∀ d ∈ dirs, ¬(d.1 = 0 ∧ d.2 = 0) := by
    intro d hd
    simp only [dirs, List.mem_cons, List.not_mem_nil, or_false] at hd
    rcases hd with h | h | h | h <;> (subst h; simp)
  have hfold := elim_fold_own_side dirs
    { s with
      count := s.count.set t (s.count.getD t 0 + 1),
      board := gset s.board x y (t * 0x10 + s.count.getD t 0) } x y t ht2 hl
    hg1 hx hx8 hy hy8 (by rw [hc1]; omega) (by rw [hc1]; omega)
  have hcen : cellOf (placeElim s x y t).board x y
      = t * 0x10 + s.count.getD t 0 := by
    rw [placeElim_board,
      elim_center _ x y hg1 hx hx8 hy hy8]
    exact hc1
  exact ⟨hfold.1, hfold.2, hcen⟩

end WYB

/-! ## Claim theorems -/

namespace WYB

/-- **C4**.  The first shrink raises `border` from 0 to 1, but the second
raises it from 1 to 3: `self.border += b` adds `border + 1` instead of
setting `border + 1`, so `border` does not increase by exactly one on every
shrink (in general it jumps to `2·border + 1`), contradicting the source's
own comment that `border` records the number of shrinks. -/
theorem shrink_border_jump :
    (shrink initBoard).border = 1 ∧ (shrink (shrink initBoard)).border = 3 ∧
    ∀ s : Board, (shrink s).border = 2 * s.border + 1 := by
  refine ⟨?_, ?_, shrink_border⟩
  · rw [shrink_border]; decide
  · rw [shrink_border, shrink_border]; decide

/-- **C5** (counterexample).  The spec claims a piece jumps over an adjacent
occupied *or blocked* cell.  With a white piece at (3,2), a blocked cell at
(3,3) and the empty active cell (3,4) beyond it, `_try_move` yields no
destination: the source returns `None` whenever the adjacent cell is `0x30`. -/
theorem try_move_blocked_counterexample :
    regGet sBlock 0 0 = some (3, 2) ∧
    cellOf sBlock.board 3 2 = 0x00 ∧
    cellOf sBlock.board 3 3 = 0x30 ∧ inboard sBlock 3 3 = true ∧
    cellOf sBlock.board 3 4 = 0x20 ∧ inboard sBlock 3 4 = true ∧
    try_move sBlock 3 2 0 1 = none := by
  decide

/-- **C5** (amended).  For each orthogonal direction, `_try_move` yields the
single-step destination exactly when the adjacent cell is active and empty,
and yields the cell two steps away exactly when the adjacent cell is active
and neither empty nor blocked (i.e. holds a piece, in reachable states) and
the cell beyond is empty and active; an adjacent blocked cell yields no
destination in that direction. -/
theorem try_move_characterization :
    ∀ (s : Board) (x y dx dy : Int), (dx, dy) ∈ dirs →
    (try_move s x y dx dy = some (x + dx, y + dy) ↔
      inboard s (x + dx) (y + dy) = true ∧
      cellOf s.board (x + dx) (y + dy) = 0x20) ∧
    (try_move s x y dx dy = some (x + dx + dx, y + dy + dy) ↔
      inboard s (x + dx) (y + dy) = true ∧
      cellOf s.board (x + dx) (y + dy) ≠ 0x20 ∧
      cellOf s.board (x + dx) (y + dy) ≠ 0x30 ∧
      inboard s (x + dx + dx) (y + dy + dy) = true ∧
      cellOf s.board (x + dx + dx) (y + dy + dy) = 0x20) := by
  intro s x y dx dy hd
  have hdd : ¬(dx = 0 ∧ dy = 0) := by
    simp only [dirs, List.mem_cons, List.not_mem_nil, or_false] at hd
    rcases hd with h | h | h | h <;>
      (injection h with h1 h2; subst h1; subst h2; simp)
  have hne : (x + dx, y + dy) ≠ (x + dx + dx, y + dy + dy) := by
    intro h
    rw [Prod.ext_iff] at h
    simp only [] at h
    exact hdd ⟨by omega, by omega⟩
  have hne2 : (x + dx + dx, y + dy + dy) ≠ (x + dx, y + dy) := Ne.symm hne
  simp only [try_move]
  split_ifs with h1 h2 h3
  · rw [Bool.or_eq_true, Bool.not_eq_true', decide_eq_true_eq] at h1
    refine ⟨⟨(fun h => nomatch h), fun h => ?_⟩, ⟨(fun h => nomatch h), fun h => ?_⟩⟩
    · obtain ⟨hi, hc⟩ := h
      rcases h1 with h | h
      · simp [hi] at h
      · rw [hc] at h; exact absurd h (by decide)
    · obtain ⟨hi, _, hc', _, _⟩ := h
      rcases h1 with h | h
      · simp [hi] at h
      · exact absurd h hc'
  · rw [Bool.or_eq_true, Bool.not_eq_true', decide_eq_true_eq, not_or,
      Bool.not_eq_false] at h1
    refine ⟨⟨fun _ => ⟨h1.1, h2⟩, fun _ => rfl⟩,
      ⟨fun h => ?_, fun h => ?_⟩⟩
    · injection h with h'
      exact absurd h' hne
    · exact absurd h2 h.2.1
  · rw [Bool.or_eq_true, Bool.not_eq_true', decide_eq_true_eq, not_or,
      Bool.not_eq_false] at h1
    rw [Bool.and_eq_true, decide_eq_true_eq] at h3
    refine ⟨⟨fun h => ?_, fun h => ?_⟩, ⟨fun _ => ⟨h1.1, h2, h1.2, h3.1, h3.2⟩,
      fun _ => rfl⟩⟩
    · injection h with h'
      exact absurd h' hne2
    · exact absurd h.2 h2
  · rw [Bool.and_eq_true, decide_eq_true_eq] at h3
    push_neg at h3
    refine ⟨⟨(fun h => nomatch h), fun h => absurd h.2 h2⟩,
      ⟨(fun h => nomatch h), fun h => ?_⟩⟩
    · exact absurd h.2.2.2.2 (h3 h.2.2.2.1)

/-- **C5** (witness for the amended characterization), instantiated on the
fresh board at (4,4) in direction (0,1): the step destination is offered
because (4,5) is empty and active. -/
theorem try_move_characterization_witness :
    ((0 : Int), (1 : Int)) ∈ dirs ∧
    (try_move initBoard 4 4 0 1 = some (4 + 0, 4 + 1) ↔
      inboard initBoard (4 + 0) (4 + 1) = true ∧
      cellOf initBoard.board (4 + 0) (4 + 1) = 0x20) :=
  ⟨by decide, (try_move_characterization initBoard 4 4 0 1 (by decide)).1⟩

/-- **C8**.  `copy` rebuilds every field of the state element by element and
returns a state equal to the original; since the embedding is a value
semantics, all operations are pure functions and mutation of a copy cannot
affect the original. -/
theorem copy_eq (s : Board) : copy s = s := by
  cases s
  simp [copy]

/-- **C10**.  On the freshly constructed board the terminal predicate `end`
already returns `true` (both live-piece counts are 0 < 2); in general it
returns `true` exactly when either side's live count is below 2. -/
theorem end_initial_and_characterization :
    endB initBoard = true ∧
    ∀ (s : Board) (a b : Int), s.num_pieces = [a, b] →
      (endB s = true ↔ a < 2 ∨ b < 2) := by
  constructor
  · decide
  · intro s a b h
    simp [endB, h]

/-- **C3** (counterexample).  In a concrete valid run (one white placement,
then 128 valid back-and-forth moves), the single shrink transition occurs
(border becomes 1), yet the ring-1 perimeter cell (1,2) is still `Empty`
(0x20), not `Blocked`: `_shrink` does not convert every perimeter cell of
the next ring inward to `Blocked`. -/
theorem shrink_ring_not_blocked_counterexample :
    validSeq s0C msC = true ∧ (applyMoves s0C msC).border = 1 ∧
    cellOf (applyMoves s0C msC).board 1 2 = 0x20 := by
  obtain ⟨he, hv⟩ := run_s0C
  exact ⟨hv, by rw [he]; decide, by rw [he]; decide⟩

/-- **C3** (amended).  In a shrink transition from border 0 or 1, the
outermost active ring's perimeter cells are marked `Removed`, **only the
four corner cells** of the next ring inward are converted to `Blocked`
(deleting any occupant, via the leftover loop index `i = 6 - b`), with
capture resolution re-run at each of those corners; every other cell either
keeps its value or is emptied by that capture re-check — in particular no
non-corner perimeter cell of the next ring is ever converted to `Blocked`. -/
theorem shrink_blocks_only_corners (s : Board) (hg : gridShape s.board)
    (hb : s.border ≤ 1) :
    (∀ c ∈ ringCells s.border, cellOf (shrink s).board c.1 c.2 = 0x40) ∧
    (∀ c ∈ cornerCells s.border, cellOf (shrink s).board c.1 c.2 = 0x30) ∧
    (∀ x y : Int, 0 ≤ x → x < 8 → 0 ≤ y → y < 8 →
      (x, y) ∉ ringCells s.border → (x, y) ∉ cornerCells s.border →
      cellOf (shrink s).board x y = cellOf s.board x y ∨
      cellOf (shrink s).board x y = 0x20) := by
  refine ⟨fun c hc => ?_, fun c hc => ?_, fun x y hx hx8 hy hy8 hr hcn => ?_⟩
  · obtain ⟨c1, c2, c3, c4⟩ := ringCells_bounds (by omega) c hc
    exact (shrink_cells s hg (by omega) c.1 c.2 c1 c2 c3 c4).1 hc
  · obtain ⟨c1, c2, c3, c4⟩ := cornerCells_bounds (by omega) c hc
    exact (shrink_cells s hg (by omega) c.1 c.2 c1 c2 c3 c4).2.1 hc
  · exact (shrink_cells s hg (by omega) x y hx hx8 hy hy8).2.2 hr hcn

/-- **C3** (witness for the amended statement): on the fresh board, the
shrink removes the outer ring cell (0,3) and blocks the ring-1 corner (1,1),
while the ring-1 perimeter cell (1,2) keeps its value. -/
theorem shrink_blocks_only_corners_witness :
    cellOf (shrink initBoard).board 0 3 = 0x40 ∧
    cellOf (shrink initBoard).board 1 1 = 0x30 ∧
    (cellOf (shrink initBoard).board 1 2 = cellOf initBoard.board 1 2 ∨
      cellOf (shrink initBoard).board 1 2 = 0x20) :=
  ⟨(shrink_blocks_only_corners initBoard gridShape_init (by decide)).1
      (0, 3) (by decide),
    (shrink_blocks_only_corners initBoard gridShape_init (by decide)).2.1
      (1, 1) (by decide),
    (shrink_blocks_only_corners initBoard gridShape_init (by decide)).2.2
      1 2 (by decide) (by decide) (by decide) (by decide) (by decide) (by decide)⟩

/-- **C7**.  Every shrink sets `turn_thres` to `turn_thres + turn_step` and
then halves `turn_step` by integer division; and from any state with the
initial schedule (`turns = 0`, `turn_thres = 128`, `turn_step = 64`), any
sequence of 128 valid moves triggers exactly one shrink, at the 128th move:
after every proper prefix the threshold is still 128 (no shrink yet), and
after all 128 moves `turns = 128`, `turn_thres = 192`, `turn_step = 32`. -/
theorem shrink_schedule :
    (∀ s : Board, (shrink s).turn_thres = s.turn_thres + s.turn_step ∧
      (shrink s).turn_step = s.turn_step / 2) ∧
    ∀ (s : Board) (ms : List (Int × Int × Int × Int)),
      s.turns = 0 → s.turn_thres = 128 → s.turn_step = 64 →
      validSeq s ms = true → ms.length = 128 →
      (applyMoves s ms).turns = 128 ∧
      (applyMoves s ms).turn_thres = 192 ∧
      (applyMoves s ms).turn_step = 32 ∧
      ∀ k : Nat, k < 128 → (applyMoves s (ms.take k)).turn_thres = 128 := by
  refine ⟨fun s => ⟨shrink_turn_thres s, shrink_turn_step s⟩, ?_⟩
  intro s ms h0 h128 h64 _ hlen
  have hne : ms ≠ [] := by
    intro h
    rw [h] at hlen
    cases hlen
  obtain ⟨a1, a2, a3⟩ := applyMoves_one_shrink ms s hne (by omega)
  refine ⟨by omega, by omega, by omega, fun k hk => ?_⟩
  have htk : (ms.take k).length = k := by
    rw [List.length_take]
    omega
  obtain ⟨b1, b2, b3⟩ := applyMoves_no_shrink (ms.take k) s (by omega)
  omega

set_option maxRecDepth 4000 in
/-- **C7** (witness): the concrete valid 128-move run `msC` from `s0C`. -/
theorem shrink_schedule_witness :
    validSeq s0C msC = true ∧
    (applyMoves s0C msC).turns = 128 ∧
    (applyMoves s0C msC).turn_thres = 192 ∧
    (applyMoves s0C msC).turn_step = 32 := by
  have h := shrink_schedule.2 s0C msC (by rw [s0C_eq]; decide)
    (by rw [s0C_eq]; decide) (by rw [s0C_eq]; decide) run_s0C.2 (by decide)
  exact ⟨run_s0C.2, h.1, h.2.1, h.2.2.1⟩

/-- **C2**.  In every state reached from the initial board by a sequence of
valid `place`/`move` operations, the grid and the registries agree: every
occupied registry slot `(side, id)` points to a cell holding exactly the
piece code `16·side + id`, every cell holding a piece code has the matching
registry entry at its own position, and `num_pieces[side]` equals the number
of occupied registry slots of that side. -/
theorem grid_registry_agreement {s : Board} (hs : ReachableV s) :
    (∀ (t i : Nat) (r c : Int), t < 2 → i < 12 →
      regGet s t i = some (r, c) →
      0 ≤ r ∧ r < 8 ∧ 0 ≤ c ∧ c < 8 ∧ cellOf s.board r c = 16 * t + i) ∧
    (∀ r c : Int, 0 ≤ r → r < 8 → 0 ≤ c → c < 8 →
      cellOf s.board r c < 0x20 →
      regGet s (cellOf s.board r c / 16) (cellOf s.board r c % 16)
        = some (r, c)) ∧
    (∀ t : Nat, t < 2 → s.num_pieces.getD t 0
      = ((s.pieces.getD t []).countP fun o => o.isSome : Nat)) := by
  obtain ⟨hI, _⟩ := reachable_inv hs
  refine ⟨?_, ?_, hI.live⟩
  · intro t i r c ht hi hreg
    exact hI.reg2grid t i r c ht hi (by omega) hreg
  · intro r c h1 h2 h3 h4 h5
    exact hI.grid2reg r c h1 h2 h3 h4 h5 (by omega)

set_option maxRecDepth 6000 in
/-- **C2** (witness): after the valid placement of white piece 0 at (2,2),
the registry entry and the grid cell agree. -/
theorem grid_registry_agreement_witness :
    cellOf s0C.board 2 2 = 16 * 0 + 0 ∧ regGet s0C 0 0 = some (2, 2) ∧
    s0C.num_pieces.getD 0 0 = 1 := by
  have h := grid_registry_agreement
    (ReachableV.place ReachableV.init
      (by decide : validPlace initBoard 2 2 0 = true))
  exact ⟨(h.1 0 0 2 2 (by decide) (by decide) (by decide)).2.2.2.2,
    by decide, by decide⟩

/-- **C6**.  A valid placement of side `t` at a cell that, after the capture
pass `_elim` has resolved captures of other pieces, is flanked on one axis by
two active cells hostile to `t` (an opposing piece or a Blocked cell, i.e.
cells whose kind is listed in `oppo[t]`) self-captures: side `t`'s registry
row and live count are unchanged by the whole `place` call, the cell ends up
Empty, and `count[t]` is still incremented, so the piece id is consumed
without the piece ever entering the registry. -/
theorem place_self_capture {s : Board} {x y : Int} {t : Nat} {dxa dya : Int}
    (hg : gridShape s.board) (hv : validPlace s x y t = true)
    (haxis : (dxa, dya) = ((1 : Int), (0 : Int)) ∨
      (dxa, dya) = ((0 : Int), (1 : Int)))
    (hin1 : inboard s (x + dxa) (y + dya) = true)
    (hin2 : inboard s (x - dxa) (y - dya) = true)
    (hh1 : (oppo.getD t []).contains
      (cellOf (placeElim s x y t).board (x + dxa) (y + dya) / 0x10) = true)
    (hh2 : (oppo.getD t []).contains
      (cellOf (placeElim s x y t).board (x - dxa) (y - dya) / 0x10) = true) :
    (place s x y t).pieces.getD t [] = s.pieces.getD t [] ∧
    (place s x y t).num_pieces.getD t 0 = s.num_pieces.getD t 0 ∧
    (place s x y t).count = s.count.set t (s.count.getD t 0 + 1) ∧
    cellOf (place s x y t).board x y = 0x20 := by
  obtain ⟨ht2, hcnt, hx, hx8, hy, hy8, hempty⟩ := validPlace_parts hv
  obtain ⟨hpieces, hnum, hcenter⟩ := placeElim_own_side hg hv
  have hg2 : gridShape (placeElim s x y t).board := gridShape_placeElim x y t hg
  have hpne : cellOf (placeElim s x y t).board x y ≠ 0x20 := by
    rw [hcenter]
    omega
  have hpdiv : cellOf (placeElim s x y t).board x y / 0x10 = t := by
    rw [hcenter]
    omega
  have hin1' : inboard (placeElim s x y t) (x + dxa) (y + dya) = true := by
    rw [inboard_congr (placeElim_border s x y t)]
    exact hin1
  have hin2' : inboard (placeElim s x y t) (x - dxa) (y - dya) = true := by
    rw [inboard_congr (placeElim_border s x y t)]
    exact hin2
  have hsur : surrounded (placeElim s x y t) x y dxa dya = true := by
    refine surrounded_true_of hin1' hin2' hpne ?_ ?_
    · rw [hpdiv]
      exact hh1
    · rw [hpdiv]
      exact hh2
  have hcond : (surrounded (placeElim s x y t) x y 1 0 ||
      surrounded (placeElim s x y t) x y 0 1) = true := by
    rw [Bool.or_eq_true]
    rcases haxis with h | h <;>
      (rw [Prod.mk.injEq] at h; obtain ⟨h1, h2⟩ := h; subst h1; subst h2)
    · exact Or.inl hsur
    · exact Or.inr hsur
  rw [place_eq_resolve]
  unfold placeResolve
  rw [if_pos hcond]
  refine ⟨hpieces, hnum, ?_, ?_⟩
  · show (placeElim s x y t).count = _
    exact placeElim_count s x y t
  · show cellOf (gset (placeElim s x y t).board x y 0x20) x y = 0x20
    rw [cellOf_gset hg2 _ hx hx8 hy hy8 hx hx8 hy hy8, if_pos ⟨rfl, rfl⟩]

set_option maxRecDepth 8000 in
/-- **C6** (witness): white placed at (0,1) on `sFlank` (black at (0,2),
corner wall at (0,0)) self-captures: live count and registry row of white
unchanged, the cell empty, and `count[0]` consumed. -/
theorem place_self_capture_witness :
    (place sFlank 0 1 0).pieces.getD 0 [] = sFlank.pieces.getD 0 [] ∧
    (place sFlank 0 1 0).num_pieces.getD 0 0 = sFlank.num_pieces.getD 0 0 ∧
    (place sFlank 0 1 0).count = sFlank.count.set 0 (sFlank.count.getD 0 0 + 1) ∧
    cellOf (place sFlank 0 1 0).board 0 1 = 0x20 := by
  exact @place_self_capture sFlank 0 1 0 0 1 ⟨by decide, by decide⟩ (by decide)
    (Or.inr (by decide)) (by decide) (by decide) (by decide) (by decide)

/-- **C9**.  In every reachable state, every Blocked cell lies on the wall
band of the active area (both coordinates at or outside the band), so for a
Blocked or Removed cell and any of the four directions, at least one flank
cell fails `_inboard`: `_surrounded` returns `False` at one of its two guard
checks, before `oppo[p // 0x10]` would be indexed with the cell's kind
(`surroundedChk`, which is `none` exactly where Python's lookup would raise
`IndexError`, returns `some false`), and consequently the capture pass
`_elim` never clears such a cell. -/
theorem walls_guard_surrounded {s : Board} (hs : ReachableV s)
    {x y dx dy : Int}
    (hx : 0 ≤ x) (hx8 : x < 8) (hy : 0 ≤ y) (hy8 : y < 8)
    (hwall : cellOf s.board x y = 0x30 ∨ cellOf s.board x y = 0x40)
    (hd : (dx, dy) ∈ dirs) :
    (cellOf s.board x y = 0x30 →
      (x ≤ (s.border : Int) ∨ (7 : Int) - s.border ≤ x) ∧
      (y ≤ (s.border : Int) ∨ (7 : Int) - s.border ≤ y)) ∧
    (inboard s (x + dx) (y + dy) = false ∨
      inboard s (x - dx) (y - dy) = false) ∧
    surroundedChk s x y dx dy = some false ∧
    surrounded s x y dx dy = false ∧
    (∀ x0 y0 : Int, cellOf (elim s x0 y0).board x y = cellOf s.board x y) := by
  obtain ⟨hI, hS⟩ := reachable_inv hs
  have hdd : (dx = 0 ∧ (dy = -1 ∨ dy = 1)) ∨
      (dy = 0 ∧ (dx = -1 ∨ dx = 1)) := by
    simp only [dirs, List.mem_cons, List.not_mem_nil, or_false,
      Prod.mk.injEq] at hd
    rcases hd with ⟨h1, h2⟩ | ⟨h1, h2⟩ | ⟨h1, h2⟩ | ⟨h1, h2⟩ <;>
      subst h1 <;> subst h2 <;> omega
  have hflank : inboard s (x + dx) (y + dy) = false ∨
      inboard s (x - dx) (y - dy) = false := by
    by_cases h1 : inboard s (x + dx) (y + dy) = true
    · right
      obtain ⟨a1, a2, a3, a4⟩ := inboard_parts h1
      apply inboard_false_of
      rcases hwall with hw | hw
      · obtain ⟨hbx, hby⟩ := hS.1 x y hx hx8 hy hy8 hw
        omega
      · have hout := hS.2 x y hx hx8 hy hy8 hw
        omega
    · left
      exact Bool.eq_false_iff.mpr h1
  obtain ⟨hchk, hsf⟩ := surrounded_false_of_flank hflank
  refine ⟨fun hw => hS.1 x y hx hx8 hy hy8 hw, hflank, hchk, hsf, ?_⟩
  intro x0 y0
  apply elim_nonpiece s x0 y0 x y hI.shape hx hx8 hy hy8
  rcases hwall with hw | hw <;> omega

/-- **C9** (witness): the corner wall (0,0) of the fresh board, direction
(0,1): the flanking test returns `false` at the guard, with no hostility
lookup. -/
theorem walls_guard_surrounded_witness :
    surroundedChk initBoard 0 0 0 1 = some false ∧
    surrounded initBoard 0 0 0 1 = false := by
  have h := @walls_guard_surrounded initBoard ReachableV.init 0 0 0 1
    (by decide) (by decide) (by decide) (by decide) (Or.inl (by decide))
    (by decide)
  exact ⟨h.2.2.1, h.2.2.2.1⟩

/-- **C10** (witness): the characterization applied to the fresh board. -/
theorem end_initial_witness :
    endB initBoard = true ∧
    (endB initBoard = true ↔ (0 : Int) < 2 ∨ (0 : Int) < 2) :=
  ⟨end_initial_and_characterization.1,
    end_initial_and_characterization.2 initBoard 0 0 rfl⟩

end WYB
